import Mathlib

/-!
Verification of the MaskingEngine sanitization core.

Python strings are embedded as `List Char` (`Str`); offsets are the
nonnegative codepoint offsets of the data model.  All functions are
executable translations of the source files under `maskingengine/`.
-/

set_option maxHeartbeats 1000000

/-- Python strings, embedded as lists of characters. -/
abbrev Str := List Char

/-- Python slice `s[a:b]` for nonnegative `a ≤ b` (out-of-range tolerated,
as in Python). -/
def strSlice (s : Str) (a b : Nat) : Str := (s.drop a).take (b - a)

/-- `needle in haystack`: substring occurrence. -/
def occursIn (p s : Str) : Prop := p <:+: s

instance (p s : Str) : Decidable (occursIn p s) := by
  unfold occursIn; infer_instance

instance {ε α : Type} [DecidableEq ε] [DecidableEq α] :
    DecidableEq (Except ε α) := fun a b =>
  match a, b with
  | .error e1, .error e2 =>
    if h : e1 = e2 then isTrue (by rw [h])
    else isFalse (by intro hc; cases hc; exact h rfl)
  | .error _, .ok _ => isFalse (by intro hc; cases hc)
  | .ok _, .error _ => isFalse (by intro hc; cases hc)
  | .ok v1, .ok v2 =>
    if h : v1 = v2 then isTrue (by rw [h])
    else isFalse (by intro hc; cases hc; exact h rfl)

/-- Worker for `str.replace`: `fuel` bounds the recursion; any fuel
`≥ s.length + 1` computes Python's semantics. -/
def replaceAllGo (old new : Str) : Nat → Str → Str
  | 0, s => s
  | _ + 1, [] => if old = [] then new else []
  | fuel + 1, c :: cs =>
    if old = [] then
      new ++ c :: replaceAllGo old new fuel cs
    else if old.isPrefixOf (c :: cs) then
      new ++ replaceAllGo old new fuel ((c :: cs).drop old.length)
    else
      c :: replaceAllGo old new fuel cs

/-- Python `s.replace(old, new)`: replace every non-overlapping occurrence,
scanning left to right (for `old = ""`, Python inserts `new` at every
position). -/
def replaceAll (s old new : Str) : Str := replaceAllGo old new (s.length + 1) s

theorem replaceAllGo_fuel (old new : Str) :
    ∀ f₁ f₂ s, s.length < f₁ → s.length < f₂ →
      replaceAllGo old new f₁ s = replaceAllGo old new f₂ s := by
  intro f₁
  induction f₁ with
  | zero => intro f₂ s h₁ h₂; omega
  | succ f ih =>
    intro f₂ s h₁ h₂
    cases f₂ with
    | zero => omega
    | succ g =>
      cases s with
      | nil => simp [replaceAllGo]
      | cons c cs =>
        have hcs : cs.length < f := by simp at h₁; omega
        have hcs' : cs.length < g := by simp at h₂; omega
        simp only [replaceAllGo]
        by_cases h0 : old = []
        · rw [if_pos h0, if_pos h0, ih g cs hcs hcs']
        · rw [if_neg h0, if_neg h0]
          have hol : 1 ≤ old.length := by
            cases old with
            | nil => exact absurd rfl h0
            | cons o os => simp
          by_cases hp : old.isPrefixOf (c :: cs) = true
          · rw [if_pos hp, if_pos hp]
            have hd : ((c :: cs).drop old.length).length < f := by
              simp only [List.length_drop, List.length_cons]; omega
            have hd' : ((c :: cs).drop old.length).length < g := by
              simp only [List.length_drop, List.length_cons]; omega
            rw [ih g _ hd hd']
          · rw [if_neg hp, if_neg hp, ih g cs hcs hcs']

theorem replaceAll_nil (old new : Str) :
    replaceAll [] old new = if old = [] then new else [] := by
  simp [replaceAll, replaceAllGo]

theorem replaceAll_of_isPrefixOf (s old new : Str) (h0 : old ≠ [])
    (hp : old.isPrefixOf s) :
    replaceAll s old new = new ++ replaceAll (s.drop old.length) old new := by
  cases s with
  | nil =>
    cases old with
    | nil => exact absurd rfl h0
    | cons o os => simp [List.isPrefixOf] at hp
  | cons c cs =>
    show replaceAllGo old new (cs.length + 1 + 1) (c :: cs) = _
    simp only [replaceAllGo]
    rw [if_neg h0, if_pos hp]
    congr 1
    apply replaceAllGo_fuel
    · have hol : 1 ≤ old.length := by
        cases old with
        | nil => exact absurd rfl h0
        | cons o os => simp
      simp only [List.length_drop, List.length_cons]; omega
    · omega

theorem replaceAll_cons_of_not_isPrefixOf (c : Char) (cs old new : Str)
    (h0 : old ≠ []) (hp : ¬ old.isPrefixOf (c :: cs)) :
    replaceAll (c :: cs) old new = c :: replaceAll cs old new := by
  show replaceAllGo old new (cs.length + 1 + 1) (c :: cs) = _
  simp only [replaceAllGo]
  rw [if_neg h0, if_neg hp]
  rfl

/-! ## SHA-256 (the `hashlib.sha256(...).hexdigest()` used by the masker)

A direct executable implementation of FIPS 180-4 over `Nat`, with 32-bit
arithmetic written as explicit `% 2^32`. -/

/-- UTF-8 encoding of a character (Python `str.encode()`), as byte values. -/
def utf8Bytes (c : Char) : List Nat :=
  let n := c.toNat
  if n < 0x80 then [n]
  else if n < 0x800 then
    [0xC0 + n / 0x40, 0x80 + n % 0x40]
  else if n < 0x10000 then
    [0xE0 + n / 0x1000, 0x80 + (n / 0x40) % 0x40, 0x80 + n % 0x40]
  else
    [0xF0 + n / 0x40000, 0x80 + (n / 0x1000) % 0x40,
     0x80 + (n / 0x40) % 0x40, 0x80 + n % 0x40]

/-- UTF-8 encoding of a string. -/
def utf8Encode (s : Str) : List Nat := s.flatMap utf8Bytes

def w32 : Nat := 4294967296

/-- 32-bit rotate right. -/
def rotr (k n : Nat) : Nat := (n >>> k ||| n <<< (32 - k)) % w32

/-- SHA-256 round constants. -/
def sha256K : List Nat :=
  [1116352408, 1899447441, 3049323471, 3921009573, 961987163, 1508970993,
   2453635748, 2870763221, 3624381080, 310598401, 607225278, 1426881987,
   1925078388, 2162078206, 2614888103, 3248222580, 3835390401, 4022224774,
   264347078, 604807628, 770255983, 1249150122, 1555081692, 1996064986,
   2554220882, 2821834349, 2952996808, 3210313671, 3336571891, 3584528711,
   113926993, 338241895, 666307205, 773529912, 1294757372, 1396182291,
   1695183700, 1986661051, 2177026350, 2456956037, 2730485921, 2820302411,
   3259730800, 3345764771, 3516065817, 3600352804, 4094571909, 275423344,
   430227734, 506948616, 659060556, 883997877, 958139571, 1322822218,
   1537002063, 1747873779, 1955562222, 2024104815, 2227730452, 2361852424,
   2428436474, 2756734187, 3204031479, 3329325298]

/-- Initial hash state. -/
def sha256H0 : List Nat :=
  [1779033703, 3144134277, 1013904242, 2773480762,
   1359893119, 2600822924, 528734635, 1541459225]

/-- Message padding: append 128, zero bytes to 56 mod 64, then the 64-bit
big-endian bit length. -/
def sha256Pad (msg : List Nat) : List Nat :=
  let len := msg.length
  let bitLen := len * 8
  let zeroCount := (55 + 64 - len % 64) % 64
  msg ++ [0x80] ++ List.replicate zeroCount 0 ++
    [(bitLen >>> 56) % 256, (bitLen >>> 48) % 256, (bitLen >>> 40) % 256,
     (bitLen >>> 32) % 256, (bitLen >>> 24) % 256, (bitLen >>> 16) % 256,
     (bitLen >>> 8) % 256, bitLen % 256]

/-- Split a byte list into big-endian 32-bit words. -/
def bytesToWords : List Nat → List Nat
  | b0 :: b1 :: b2 :: b3 :: rest =>
      (((b0 * 256 + b1) * 256 + b2) * 256 + b3) :: bytesToWords rest
  | _ => []

/-- Extend 16 words to the 64-word message schedule. -/
def sha256Schedule (ws : List Nat) (i : Nat) : List Nat :=
  match i with
  | 0 => ws
  | i + 1 =>
    let prev := sha256Schedule ws i
    let j := prev.length
    let w15 := prev.getD (j - 15) 0
    let w2 := prev.getD (j - 2) 0
    let w16 := prev.getD (j - 16) 0
    let w7 := prev.getD (j - 7) 0
    let s0 := (rotr 7 w15 ^^^ rotr 18 w15 ^^^ (w15 >>> 3)) % w32
    let s1 := (rotr 17 w2 ^^^ rotr 19 w2 ^^^ (w2 >>> 10)) % w32
    prev ++ [(w16 + s0 + w7 + s1) % w32]

/-- One round of the compression function. -/
def sha256Round (st : List Nat) (kw : Nat) : List Nat :=
  match st with
  | [a, b, c, d, e, f, g, h] =>
    let s1 := (rotr 6 e ^^^ rotr 11 e ^^^ rotr 25 e) % w32
    let ch := (e &&& f) ^^^ ((w32 - 1 - e) &&& g)
    let t1 := (h + s1 + ch + kw) % w32
    let s0 := (rotr 2 a ^^^ rotr 13 a ^^^ rotr 22 a) % w32
    let mj := (a &&& b) ^^^ (a &&& c) ^^^ (b &&& c)
    let t2 := (s0 + mj) % w32
    [(t1 + t2) % w32, a, b, c, (d + t1) % w32, e, f, g]
  | other => other

/-- Compress one 16-word block into the running state. -/
def sha256Block (h : List Nat) (block : List Nat) : List Nat :=
  let ws := sha256Schedule block 48
  let kws := sha256K.zipWith (fun k w => (k + w) % w32) ws
  let fin := kws.foldl sha256Round h
  (h.zipWith (fun a b => (a + b) % w32) fin)

/-- Split into 16-word blocks (fuel-driven; fuel `≥ length` suffices). -/
def chunk16Go : Nat → List Nat → List (List Nat)
  | 0, _ => []
  | _ + 1, [] => []
  | fuel + 1, ws => (ws.take 16) :: chunk16Go fuel (ws.drop 16)

def chunk16 (ws : List Nat) : List (List Nat) := chunk16Go ws.length ws

/-- SHA-256 of a byte string, as the list of 8 32-bit state words. -/
def sha256Words (msg : List Nat) : List Nat :=
  (chunk16 (bytesToWords (sha256Pad msg))).foldl sha256Block sha256H0

def hexDigitChar (n : Nat) : Char :=
  "0123456789abcdef".toList.getD (n % 16) '0'

/-- Lowercase hex rendering of one 32-bit word (8 digits). -/
def wordHex (n : Nat) : Str :=
  [hexDigitChar (n >>> 28), hexDigitChar (n >>> 24), hexDigitChar (n >>> 20),
   hexDigitChar (n >>> 16), hexDigitChar (n >>> 12), hexDigitChar (n >>> 8),
   hexDigitChar (n >>> 4), hexDigitChar n]

/-- `hashlib.sha256(text.encode()).hexdigest()`. -/
def sha256Hex (text : Str) : Str :=
  (sha256Words (utf8Encode text)).flatMap wordHex


/-! ## Stable sort (Python `sorted` is a stable sort; insertion sort is
used here as an executable stable sort with the same semantics). -/

/-- Insert `x` after every element `y` with `le y x` (stable placement). -/
def stableInsert (le : α → α → Bool) (x : α) : List α → List α
  | [] => [x]
  | y :: ys => if le y x then y :: stableInsert le x ys else x :: y :: ys

/-- Stable sort by the boolean preorder `le` (Python `sorted(l, key=...)`). -/
def stableSort (le : α → α → Bool) (l : List α) : List α :=
  l.foldl (fun acc x => stableInsert le x acc) []

theorem stableInsert_perm (le : α → α → Bool) (x : α) (l : List α) :
    (stableInsert le x l).Perm (x :: l) := by
  induction l with
  | nil => simp [stableInsert]
  | cons y ys ih =>
    simp only [stableInsert]
    by_cases h : le y x
    · rw [if_pos h]
      exact ((ih.cons y).trans (List.Perm.swap x y ys))
    · rw [if_neg h]

theorem stableSort_perm (le : α → α → Bool) (l : List α) :
    (stableSort le l).Perm l := by
  suffices h : ∀ acc, (l.foldl (fun acc x => stableInsert le x acc) acc).Perm
      (acc ++ l) by
    simpa using h []
  induction l with
  | nil => simp
  | cons x xs ih =>
    intro acc
    simp only [List.foldl_cons]
    refine (ih (stableInsert le x acc)).trans ?_
    have h1 : (stableInsert le x acc).Perm (x :: acc) := stableInsert_perm le x acc
    refine (h1.append_right xs).trans ?_
    simpa using (@List.perm_middle _ x acc xs).symm

theorem stableInsert_sorted (le : α → α → Bool)
    (htr : ∀ a b c, le a b → le b c → le a c)
    (hto : ∀ a b, le a b ∨ le b a) (x : α) (l : List α)
    (hl : l.Pairwise (fun a b => le a b)) :
    (stableInsert le x l).Pairwise (fun a b => le a b) := by
  induction l with
  | nil => simp [stableInsert]
  | cons y ys ih =>
    simp only [stableInsert]
    rcases List.pairwise_cons.mp hl with ⟨hy, hys⟩
    by_cases h : le y x
    · rw [if_pos h]
      refine List.pairwise_cons.mpr ⟨?_, ih hys⟩
      intro b hb
      have hb' := (stableInsert_perm le x ys).mem_iff.mp hb
      rcases List.mem_cons.mp hb' with rfl | hb''
      · exact h
      · exact hy b hb''
    · rw [if_neg h]
      have hxy : le x y := (hto x y).resolve_right (by simpa using h)
      refine List.pairwise_cons.mpr ⟨?_, hl⟩
      intro b hb
      rcases List.mem_cons.mp hb with rfl | hb'
      · exact hxy
      · exact htr x y b hxy (hy b hb')

theorem stableSort_sorted (le : α → α → Bool)
    (htr : ∀ a b c, le a b → le b c → le a c)
    (hto : ∀ a b, le a b ∨ le b a) (l : List α) :
    (stableSort le l).Pairwise (fun a b => le a b) := by
  suffices h : ∀ acc, acc.Pairwise (fun a b => le a b) →
      (l.foldl (fun acc x => stableInsert le x acc) acc).Pairwise
        (fun a b => le a b) by
    exact h [] (by simp)
  induction l with
  | nil => intro acc h; simpa using h
  | cons x xs ih =>
    intro acc hacc
    simp only [List.foldl_cons]
    exact ih _ (stableInsert_sorted le htr hto x acc hacc)

/-! ## `core/masking.py` — deterministic masking and rehydration -/

/-- A pipeline detection record (`{"type", "text", "start", "end",
"confidence", "source"}`).  Offsets are the nonnegative positions of the
data model (`end` is spelled `stop`, `end` being reserved in Lean). -/
structure PDetection where
  type : Str
  text : Str
  start : Nat
  stop : Nat
  confidence : ℚ
  source : Str
deriving DecidableEq, Repr

/-- `MaskingEngine(prefix, suffix)`; `pre`/`suf` embed the engine's
`prefix`/`suffix` attributes. -/
structure MaskingEngine where
  pre : Str
  suf : Str
deriving DecidableEq, Repr

/-- The engine constructed with default arguments, `MaskingEngine()`. -/
def defaultEngine : MaskingEngine := ⟨"<<".toList, ">>".toList⟩

/-- `MaskingEngine._generate_placeholder`:
`prefix + f"{entity_type}_{sha256(text)[:8]}" + suffix`. -/
def generatePlaceholder (e : MaskingEngine) (entityType text : Str) : Str :=
  e.pre ++ entityType ++ ('_' :: (sha256Hex text).take 8) ++ e.suf

/-- Python dict assignment `m[k] = v`: overwrite in place or append. -/
def rmapInsert : List (Str × Str) → Str → Str → List (Str × Str)
  | [], k, v => [(k, v)]
  | (k0, v0) :: rest, k, v =>
    if k0 = k then (k0, v) :: rest else (k0, v0) :: rmapInsert rest k v

/-- `MaskingEngine.mask_text`: replace detections in descending-`start`
order, collecting the rehydration map. -/
def maskText (e : MaskingEngine) (text : Str) (ds : List PDetection) :
    Str × List (Str × Str) :=
  if ds.isEmpty then (text, []) else
  (stableSort (fun a b => decide (b.start ≤ a.start)) ds).foldl
    (fun mm d =>
      let ph := generatePlaceholder e d.type d.text
      (mm.1.take d.start ++ ph ++ mm.1.drop d.stop, rmapInsert mm.2 ph d.text))
    (text, [])

/-- `MaskingEngine.rehydrate_text`: replace placeholders by originals,
longest placeholder first. -/
def rehydrateText (e : MaskingEngine) (masked : Str)
    (map : List (Str × Str)) : Str :=
  if map.isEmpty then masked else
  (stableSort (fun a b => decide (b.1.length ≤ a.1.length)) map).foldl
    (fun m kv => replaceAll m kv.1 kv.2) masked

/-- `MaskingEngine.validate_rehydration_map` (the `isinstance` checks hold
by typing in this embedding). -/
def validateRehydrationMap (e : MaskingEngine)
    (map : List (Str × Str)) : Bool :=
  map.all fun kv => e.pre.isPrefixOf kv.1 && e.suf.isSuffixOf kv.1

/-- `core/sanitizer.rehydrate`: validates with a default-affix engine, then
rehydrates; raising `ValueError` is embedded as `Except.error`. -/
def rehydrateFn (masked : Str) (map : List (Str × Str)) : Except String Str :=
  if validateRehydrationMap defaultEngine map then
    .ok (rehydrateText defaultEngine masked map)
  else
    .error "Invalid rehydration map format"

/-! ## `core/pipeline.py` — `SanitizationPipeline.deduplicate_detections` -/

/-- Lexicographic key `(start, -end)` of the resolver's sort. -/
def dedupLe (a b : PDetection) : Bool :=
  decide (a.start < b.start) ||
    (decide (a.start = b.start) && decide (b.stop ≤ a.stop))

/-- The resolver's scan: `last_end` starts at `-1`; a candidate starting at
or after `last_end` is accepted whole; a partially overlapping candidate is
truncated (start advanced to `last_end`, text sliced) and kept if its text
is nonempty; other candidates are dropped. -/
def dedupGo : Int → List PDetection → List PDetection
  | _, [] => []
  | lastEnd, d :: rest =>
    if lastEnd ≤ (d.start : Int) then d :: dedupGo (d.stop : Int) rest
    else if lastEnd < (d.stop : Int) then
      if (d.text.drop (lastEnd.toNat - d.start)).isEmpty then
        dedupGo lastEnd rest
      else
        { d with start := lastEnd.toNat,
                 text := d.text.drop (lastEnd.toNat - d.start) } ::
          dedupGo (d.stop : Int) rest
    else dedupGo lastEnd rest

/-- `SanitizationPipeline.deduplicate_detections`. -/
def deduplicateDetections (ds : List PDetection) : List PDetection :=
  if ds.isEmpty then [] else dedupGo (-1) (stableSort dedupLe ds)

/-! ## A small backtracking regex engine

`detectors/regex_detector.py` compiles five fixed patterns with Python
`re`.  Each construct used by those patterns (character classes, literals,
greedy counted repetition, ordered alternation, option, word boundary) is
embedded below; a matcher maps a string and start position to the list of
candidate end positions in Python's backtracking preference order, so that
the head of the list is the match Python returns. -/

/-- A matcher: candidate end positions, best first. -/
abbrev RE := Str → Nat → List Nat

/-- Empty pattern. -/
def reEps : RE := fun _ i => [i]

/-- Single character from a class. -/
def reCls (f : Char → Bool) : RE := fun s i =>
  match s.get? i with
  | some c => if f c then [i + 1] else []
  | none => []

/-- Fixed literal. -/
def reLit (lit : Str) : RE := fun s i =>
  if lit.isPrefixOf (s.drop i) then [i + lit.length] else []

/-- Concatenation. -/
def reSeq (p q : RE) : RE := fun s i => (p s i).flatMap (q s)

/-- Ordered alternation (`|`, leftmost alternative preferred). -/
def reAlt (p q : RE) : RE := fun s i => p s i ++ q s i

/-- Greedy option (`?`). -/
def reOpt (p : RE) : RE := fun s i => p s i ++ [i]

/-- Concatenation of a list of patterns. -/
def reCat (ps : List RE) : RE := ps.foldr reSeq reEps

/-- Greedy `p{0,k}` (at most `k` repetitions, more preferred). -/
def reUpTo (p : RE) : Nat → RE
  | 0 => reEps
  | k + 1 => fun s i => (p s i).flatMap (reUpTo p k s) ++ [i]

/-- Greedy counted repetition `p{lo,hi}`. -/
def reRepP (p : RE) (lo hi : Nat) : RE :=
  reCat (List.replicate lo p ++ [reUpTo p (hi - lo)])

/-- Greedy class repetition `[..]{lo,hi}` (classes consume one character,
so this is `reRepP` of a class). -/
def reRep (f : Char → Bool) (lo hi : Nat) : RE := reRepP (reCls f) lo hi

/-- Greedy unbounded class repetition `[..]{lo,}`; the run of class
characters bounds the count. -/
def reRepU (f : Char → Bool) (lo : Nat) : RE := fun s i =>
  reRep f lo ((s.drop i).takeWhile f).length s i

/-- Word characters, ASCII fragment of Python's `\w` (all inputs in this
development are ASCII). -/
def isWordChar (c : Char) : Bool := c.isAlphanum || c = '_'

/-- `\b`: exactly one neighbour is a word character. -/
def atBoundary (s : Str) (i : Nat) : Bool :=
  let before := match i, s.get? (i - 1) with
    | 0, _ => false
    | _ + 1, some c => isWordChar c
    | _ + 1, none => false
  let after := match s.get? i with
    | some c => isWordChar c
    | none => false
  before != after

/-- `\b` as a zero-width matcher. -/
def reBnd : RE := fun s i => if atBoundary s i then [i] else []

/-- The preferred (Python) match at a position. -/
def reFirst (p : RE) (s : Str) (i : Nat) : Option Nat := (p s i).head?

/-- `pattern.finditer(text)`: scan left to right, emit the preferred match
at the leftmost matching position, continue after it.  (The guard `i < e`
skips zero-width matches; no pattern in this file can match zero-width.) -/
def finditerGo (p : RE) (s : Str) : Nat → Nat → List (Nat × Nat)
  | 0, _ => []
  | fuel + 1, i =>
    if i < s.length then
      match reFirst p s i with
      | some e =>
        if i < e then (i, e) :: finditerGo p s fuel e
        else finditerGo p s fuel (i + 1)
      | none => finditerGo p s fuel (i + 1)
    else []

def finditer (p : RE) (s : Str) : List (Nat × Nat) :=
  finditerGo p s (s.length + 1) 0

/-! ## `detectors/regex_detector.py` — patterns and `RegexDetector` -/

def isDigitC (c : Char) : Bool := c.isDigit

def isHexC (c : Char) : Bool :=
  c.isDigit || ('a' ≤ c && c ≤ 'f') || ('A' ≤ c && c ≤ 'F')

/-- `\b[A-Za-z0-9._%+-]+@[A-Za-z0-9.-]+\.[A-Z|a-z]{2,}\b` (IGNORECASE has
no effect: the classes already contain both cases). -/
def emailRe : RE :=
  reCat [reBnd,
         reRepU (fun c => c.isAlphanum || c = '.' || c = '_' || c = '%' ||
           c = '+' || c = '-') 1,
         reLit "@".toList,
         reRepU (fun c => c.isAlphanum || c = '.' || c = '-') 1,
         reLit ".".toList,
         reRepU (fun c => c.isAlpha || c = '|') 2,
         reBnd]

/-- The credit-card alternation (Visa, MasterCard, Amex, Diners, Discover,
JCB, in source order) between word boundaries. -/
def ccRe : RE :=
  reCat [reBnd,
    reAlt
      (reCat [reLit "4".toList, reRep isDigitC 12 12,
              reOpt (reRep isDigitC 3 3)])
      (reAlt
        (reCat [reLit "5".toList, reCls (fun c => '1' ≤ c && c ≤ '5'),
                reRep isDigitC 14 14])
        (reAlt
          (reCat [reLit "3".toList, reCls (fun c => c = '4' || c = '7'),
                  reRep isDigitC 13 13])
          (reAlt
            (reCat [reLit "3".toList,
                    reAlt (reCat [reLit "0".toList,
                                  reCls (fun c => '0' ≤ c && c ≤ '5')])
                          (reCat [reCls (fun c => c = '6' || c = '8'),
                                  reCls isDigitC]),
                    reRep isDigitC 11 11])
            (reAlt
              (reCat [reLit "6".toList,
                      reAlt (reLit "011".toList)
                            (reCat [reLit "5".toList, reRep isDigitC 2 2]),
                      reRep isDigitC 12 12])
              (reCat [reAlt (reLit "2131".toList)
                        (reAlt (reLit "1800".toList)
                               (reCat [reLit "35".toList,
                                       reRep isDigitC 3 3])),
                      reRep isDigitC 11 11]))))),
    reBnd]

/-- An IPv4 octet `25[0-5]|2[0-4][0-9]|[01]?[0-9][0-9]?`. -/
def ipv4Octet : RE :=
  reAlt (reCat [reLit "25".toList, reCls (fun c => '0' ≤ c && c ≤ '5')])
    (reAlt (reCat [reLit "2".toList, reCls (fun c => '0' ≤ c && c ≤ '4'),
                   reCls isDigitC])
      (reCat [reOpt (reCls (fun c => c = '0' || c = '1')), reCls isDigitC,
              reOpt (reCls isDigitC)]))

/-- `\b(?:(?:octet)\.){3}(?:octet)\b`. -/
def ipv4Re : RE :=
  reCat [reBnd, reRepP (reCat [ipv4Octet, reLit ".".toList]) 3 3, ipv4Octet,
         reBnd]

/-- `[0-9a-fA-F]{1,4}:` -/
def ipv6G : RE := reCat [reRep isHexC 1 4, reLit ":".toList]

/-- `:[0-9a-fA-F]{1,4}` -/
def ipv6G2 : RE := reCat [reLit ":".toList, reRep isHexC 1 4]

/-- The dotted-quad tail used by the IPv4-in-IPv6 alternatives:
`(?:(?:25[0-5]|(?:2[0-4]|1{0,1}[0-9]){0,1}[0-9])\.){3,3}` then the same
octet once more. -/
def ipv6V4Octet : RE :=
  reAlt (reCat [reLit "25".toList, reCls (fun c => '0' ≤ c && c ≤ '5')])
    (reCat [reOpt (reAlt (reCat [reLit "2".toList,
                                 reCls (fun c => '0' ≤ c && c ≤ '4')])
                         (reCat [reOpt (reCls (fun c => c = '1')),
                                 reCls isDigitC])),
            reCls isDigitC])

def ipv6V4Tail : RE :=
  reCat [reRepP (reCat [ipv6V4Octet, reLit ".".toList]) 3 3, ipv6V4Octet]

/-- The IPv6 alternation, alternatives in source order (no `\b`). -/
def ipv6Re : RE :=
  reAlt (reCat [reRepP ipv6G 7 7, reRep isHexC 1 4])
    (reAlt (reCat [reRepP ipv6G 1 7, reLit ":".toList])
      (reAlt (reCat [reRepP ipv6G 1 6, reLit ":".toList, reRep isHexC 1 4])
        (reAlt (reCat [reRepP ipv6G 1 5, reRepP ipv6G2 1 2])
          (reAlt (reCat [reRepP ipv6G 1 4, reRepP ipv6G2 1 3])
            (reAlt (reCat [reRepP ipv6G 1 3, reRepP ipv6G2 1 4])
              (reAlt (reCat [reRepP ipv6G 1 2, reRepP ipv6G2 1 5])
                (reAlt (reCat [reRep isHexC 1 4, reLit ":".toList,
                               reRepP ipv6G2 1 6])
                  (reAlt (reCat [reLit ":".toList,
                                 reAlt (reRepP ipv6G2 1 7)
                                       (reLit ":".toList)])
                    (reAlt (reCat [reLit "fe80:".toList,
                                   reUpTo (reCat [reLit ":".toList,
                                                  reRep isHexC 0 4]) 4,
                                   reLit "%".toList,
                                   reRepU (fun c => c.isAlphanum) 1])
                      (reAlt (reCat [reLit "::".toList,
                                     reOpt (reCat [reLit "ffff".toList,
                                       reOpt (reCat [reLit ":".toList,
                                         reRep (fun c => c = '0') 1 4]),
                                       reLit ":".toList]),
                                     ipv6V4Tail])
                        (reCat [reRepP ipv6G 1 4, reLit ":".toList,
                                ipv6V4Tail])))))))))))

/-- `[\s.-]`, with `\s` the ASCII whitespace fragment. -/
def isSepC (c : Char) : Bool := c.isWhitespace || c = '.' || c = '-'

/-- `(?:\+?[1-9]\d{0,2}[\s.-]?)?(?:\(?\d{1,4}\)?[\s.-]?)?`
`\d{1,4}[\s.-]?\d{1,4}[\s.-]?\d{1,9}`. -/
def phoneRe : RE :=
  reCat [reOpt (reCat [reOpt (reCls (fun c => c = '+')),
                       reCls (fun c => '1' ≤ c && c ≤ '9'),
                       reRep isDigitC 0 2,
                       reOpt (reCls isSepC)]),
         reOpt (reCat [reOpt (reCls (fun c => c = '(')),
                       reRep isDigitC 1 4,
                       reOpt (reCls (fun c => c = ')')),
                       reOpt (reCls isSepC)]),
         reRep isDigitC 1 4, reOpt (reCls isSepC),
         reRep isDigitC 1 4, reOpt (reCls isSepC),
         reRep isDigitC 1 9]

/-- A raw detector tuple `(entity_type, matched_text, start, end)`. -/
structure RawDet where
  type : Str
  text : Str
  start : Nat
  stop : Nat
deriving DecidableEq, Repr

/-- `RegexDetector._validate_credit_card`: strip non-digits, require at
least 13 digits, Luhn total divisible by 10.  (Note: no upper length
bound.) -/
def luhnSum (revDigits : Str) : Nat :=
  (revDigits.enum.map fun ci =>
    let n := ci.2.toNat - 48
    if ci.1 % 2 = 1 then
      let n2 := n * 2
      if n2 > 9 then n2 - 9 else n2
    else n).sum

def validateCreditCard (cardNumber : Str) : Bool :=
  let digits := cardNumber.filter isDigitC
  if digits.isEmpty || digits.length < 13 then false
  else luhnSum digits.reverse % 10 = 0

/-- `detectors.py RegexDetector._luhn_check` (the legacy module): strip
non-digits, require 13–19 digits, Luhn with `n // 10 + n % 10`. -/
def luhnSumLegacy (revDigits : Str) : Nat :=
  (revDigits.enum.map fun ci =>
    let n := ci.2.toNat - 48
    if ci.1 % 2 = 1 then
      let n2 := n * 2
      if n2 > 9 then n2 / 10 + n2 % 10 else n2
    else n).sum

def luhnCheck (cardNumber : Str) : Bool :=
  let digits := cardNumber.filter isDigitC
  if digits.length < 13 || 19 < digits.length then false
  else luhnSumLegacy digits.reverse % 10 = 0

/-- `RegexDetector._detect_phones`.  `phoneValid` models the external
`phonenumbers` library: `phoneValid t` holds when `phonenumbers.parse`
followed by `is_valid_number` accepts `t` for one of the tried regions.
(The `except Exception` fallback re-detecting by digit count is reachable
only if the library itself crashes, which the model excludes.) -/
def detectPhones (phoneValid : Str → Bool) (s : Str) : List RawDet :=
  (finditer phoneRe s).filterMap fun ie =>
    let t := strSlice s ie.1 ie.2
    if phoneValid t then some ⟨"PHONE".toList, t, ie.1, ie.2⟩ else none

/-- `RegexDetector._deduplicate_detections`: sort by
`(start, -(end - start))`, keep non-overlapping, never truncate. -/
def regexDedupLe (a b : RawDet) : Bool :=
  decide (a.start < b.start) ||
    (decide (a.start = b.start) &&
      decide (b.stop - b.start ≤ a.stop - a.start))

def regexDedupGo : Int → List RawDet → List RawDet
  | _, [] => []
  | lastEnd, d :: rest =>
    if lastEnd ≤ (d.start : Int) then d :: regexDedupGo (d.stop : Int) rest
    else regexDedupGo lastEnd rest

def regexDedup (ds : List RawDet) : List RawDet :=
  if ds.isEmpty then [] else regexDedupGo (-1) (stableSort regexDedupLe ds)

/-- `RegexDetector.detect`: run the patterns in the registry's insertion
order (EMAIL, CREDIT_CARD, IPV4, IPV6, PHONE), validate credit cards,
deduplicate. -/
def regexDetect (phoneValid : Str → Bool) (s : Str) : List RawDet :=
  regexDedup (
    ((finditer emailRe s).map fun ie =>
      ⟨"EMAIL".toList, strSlice s ie.1 ie.2, ie.1, ie.2⟩) ++
    ((finditer ccRe s).filterMap fun ie =>
      if validateCreditCard (strSlice s ie.1 ie.2) then
        some ⟨"CREDIT_CARD".toList, strSlice s ie.1 ie.2, ie.1, ie.2⟩
      else none) ++
    ((finditer ipv4Re s).map fun ie =>
      ⟨"IPV4".toList, strSlice s ie.1 ie.2, ie.1, ie.2⟩) ++
    ((finditer ipv6Re s).map fun ie =>
      ⟨"IPV6".toList, strSlice s ie.1 ie.2, ie.1, ie.2⟩) ++
    detectPhones phoneValid s)

/-! ## `detectors/ner_detector.py` — NER adapter

The transformer pipeline is the external collaborator of spec §6.4; its
per-call outcome is a parameter: either an error (model load or tagging
failed, any exception) or the list of tagged entities. -/

/-- One entity dict produced by the external `pipeline(text)` call. -/
structure RawEntity where
  entityGroup : Str
  word : Str
  start : Nat
  stop : Nat
  score : ℚ
deriving DecidableEq, Repr

/-- An NER detection tuple
`(entity_type, word.strip(), start, end, score)`. -/
structure NDet where
  type : Str
  word : Str
  start : Nat
  stop : Nat
  score : ℚ
deriving DecidableEq, Repr

def pyToUpper (s : Str) : Str := s.map Char.toUpper

/-- Python `a in b` on strings: contiguous substring test. -/
def isInfixB (p s : Str) : Bool := decide (p <:+: s)

/-- Python `str.strip()` (ASCII whitespace). -/
def pyStrip (s : Str) : Str :=
  ((s.dropWhile Char.isWhitespace).reverse.dropWhile Char.isWhitespace).reverse

def detectedEntities : List Str :=
  ["PER", "PERSON", "LOC", "LOCATION", "ORG", "ORGANIZATION"].map
    String.toList

/-- `NERDetector._normalize_entity_type`. -/
def normalizeEntityType (t : Str) : Str :=
  let u := pyToUpper t
  if isInfixB "PER".toList u then "PERSON".toList
  else if isInfixB "LOC".toList u then "LOCATION".toList
  else if isInfixB "ORG".toList u then "ORGANIZATION".toList
  else u

/-- `NERDetector._merge_adjacent_entities` inner loop. -/
def mergeAdjGo : NDet → List NDet → List NDet
  | cur, [] => [cur]
  | cur, d :: rest =>
    if (d.start : Int) - (cur.stop : Int) ≤ 1 ∧ d.type = cur.type then
      mergeAdjGo { cur with word := cur.word ++ (' ' :: d.word),
                            stop := d.stop,
                            score := max cur.score d.score } rest
    else cur :: mergeAdjGo d rest

/-- `NERDetector._merge_adjacent_entities`. -/
def mergeAdjacentEntities (ds : List NDet) : List NDet :=
  match stableSort (fun a b => decide (a.start ≤ b.start)) ds with
  | [] => []
  | d :: rest => mergeAdjGo d rest

/-- `NERDetector.detect`.  `tagResult` is the outcome of evaluating
`self.pipeline(text)` (lazy model load included): `Except.error` embeds any
raised exception, which the method's `except Exception` turns into `[]`. -/
def nerDetect (tagResult : Except String (List RawEntity)) (text : Str)
    (confidenceThreshold : ℚ) : List NDet :=
  if text.isEmpty then []
  else
    match tagResult with
    | .error _ => []
    | .ok entities =>
      mergeAdjacentEntities
        (entities.filterMap fun ent =>
          let entityType := pyToUpper ent.entityGroup
          if ¬ detectedEntities.any (fun e => isInfixB e entityType) then
            none
          else if ent.score < confidenceThreshold then none
          else
            some ⟨normalizeEntityType entityType, pyStrip ent.word,
                  ent.start, ent.stop, ent.score⟩)

/-! ## `core/config.py` — `SanitizerConfig` -/

/-- The configuration record (pydantic model).  `placeholderPre` /
`placeholderSuf` embed `placeholder_prefix` / `placeholder_suffix`;
`whitelist` entries are stored lower-cased, as the `normalize_whitelist`
validator guarantees. -/
structure SanitizerConfig where
  enableRegex : Bool := true
  enableNer : Bool := true
  confidenceThreshold : ℚ := 85 / 100
  whitelist : List Str := []
  placeholderPre : Str := "<<".toList
  placeholderSuf : Str := ">>".toList
  loggingEnabled : Bool := false
  maxInputCharacters : Nat := 50000
deriving DecidableEq, Repr

def defaultConfig : SanitizerConfig := {}

/-! ## `core/parsers.py` — plain, JSON and HTML parsers -/

/-- A JSON tree (the result of `json.loads`; numbers are kept as their
source text, which suffices for the documents treated here). -/
inductive Json where
  | jstr (s : Str)
  | jnum (raw : Str)
  | jbool (b : Bool)
  | jnull
  | jarr (xs : List Json)
  | jobj (kvs : List (Str × Json))

def jsonWs (c : Char) : Bool := c = ' ' || c = '\t' || c = '\n' || c = '\r'

def skipWs (s : Str) : Str := s.dropWhile jsonWs

/-- JSON string body after the opening quote.  Modelled from the spec:
`json.loads` is the standard-library decoder; escape sequences are not
needed for the documents treated here and make the parse fail in this
model. -/
def jsonStringBody : Str → Option (Str × Str)
  | [] => none
  | c :: rest =>
    if c = '"' then some ([], rest)
    else if c = '\\' then none
    else match jsonStringBody rest with
      | some (body, rem) => some (c :: body, rem)
      | none => none

mutual

/-- Modelled from the spec: RFC-style JSON value parser standing in for the
standard library `json.loads` (an external collaborator); fuel-driven, any
fuel `≥ length + 1` suffices. -/
def jsonValueP : Nat → Str → Option (Json × Str)
  | 0, _ => none
  | fuel + 1, s =>
    match skipWs s with
    | [] => none
    | c :: rest =>
      if c = '"' then
        match jsonStringBody rest with
        | some (body, rem) => some (.jstr body, rem)
        | none => none
      else if c = '{' then
        match skipWs rest with
        | '}' :: rem => some (.jobj [], rem)
        | s2 => match jsonMembersP fuel s2 with
          | some (kvs, rem) => some (.jobj kvs, rem)
          | none => none
      else if c = '[' then
        match skipWs rest with
        | ']' :: rem => some (.jarr [], rem)
        | s2 => match jsonItemsP fuel s2 with
          | some (xs, rem) => some (.jarr xs, rem)
          | none => none
      else if ("true".toList).isPrefixOf (c :: rest) then
        some (.jbool true, (c :: rest).drop 4)
      else if ("false".toList).isPrefixOf (c :: rest) then
        some (.jbool false, (c :: rest).drop 5)
      else if ("null".toList).isPrefixOf (c :: rest) then
        some (.jnull, (c :: rest).drop 4)
      else
        let num := (c :: rest).takeWhile fun ch =>
          ch.isDigit || ch = '-' || ch = '+' || ch = '.' || ch = 'e' ||
            ch = 'E'
        if num.isEmpty then none
        else some (.jnum num, (c :: rest).drop num.length)

/-- Nonempty `key : value` member list of an object, up to `}`. -/
def jsonMembersP : Nat → Str → Option (List (Str × Json) × Str)
  | 0, _ => none
  | fuel + 1, s =>
    match skipWs s with
    | '"' :: rest =>
      match jsonStringBody rest with
      | some (key, rem) =>
        (match skipWs rem with
          | ':' :: rem2 =>
            match jsonValueP fuel rem2 with
            | some (v, rem3) =>
              (match skipWs rem3 with
                | ',' :: rem4 =>
                  match jsonMembersP fuel rem4 with
                  | some (kvs, rem5) => some ((key, v) :: kvs, rem5)
                  | none => none
                | '}' :: rem4 => some ([(key, v)], rem4)
                | _ => none)
            | none => none
          | _ => none)
      | none => none
    | _ => none

/-- Nonempty item list of an array, up to `]`. -/
def jsonItemsP : Nat → Str → Option (List Json × Str)
  | 0, _ => none
  | fuel + 1, s =>
    match jsonValueP fuel s with
    | some (v, rem) =>
      (match skipWs rem with
        | ',' :: rem2 =>
          match jsonItemsP fuel rem2 with
          | some (xs, rem3) => some (v :: xs, rem3)
          | none => none
        | ']' :: rem2 => some ([v], rem2)
        | _ => none)
    | none => none

end

/-- `json.loads`, whole-document. -/
def jsonLoads (s : Str) : Option Json :=
  match jsonValueP (s.length + 1) s with
  | some (j, rest) => if (skipWs rest).isEmpty then some j else none
  | none => none

def natToStr (n : Nat) : Str := (toString n).toList

def strToNat (s : Str) : Nat := s.foldl (fun a c => a * 10 + (c.toNat - 48)) 0

/-- Python `str.isdigit()` (ASCII fragment). -/
def pyIsDigitStr (s : Str) : Bool := !s.isEmpty && s.all isDigitC

/-- `JSONParser._extract_texts` paths: `f"{path}.{key}" if path else key`
and `f"{path}[{i}]"`. -/
def childPathKey (path key : Str) : Str :=
  if path.isEmpty then key else path ++ ('.' :: key)

def childPathIdx (path : Str) (i : Nat) : Str :=
  path ++ ('[' :: natToStr i) ++ "]".toList

mutual

/-- `JSONParser._extract_texts`: depth-first string leaves with their
paths, in tree order. -/
def extractTexts : Json → Str → List (Str × Str)
  | .jstr s, path => [(s, path)]
  | .jobj kvs, path => extractTextsKvs kvs path
  | .jarr xs, path => extractTextsArr xs 0 path
  | _, _ => []

def extractTextsKvs : List (Str × Json) → Str → List (Str × Str)
  | [], _ => []
  | (k, v) :: rest, path =>
    extractTexts v (childPathKey path k) ++ extractTextsKvs rest path

def extractTextsArr : List Json → Nat → Str → List (Str × Str)
  | [], _, _ => []
  | x :: rest, i, path =>
    extractTexts x (childPathIdx path i) ++ extractTextsArr rest (i + 1) path

end

/-- Update the value at a key of an object in place (no effect when the
key is absent, where Python would raise `KeyError`). -/
def objUpdate (kvs : List (Str × Json)) (k : Str) (f : Json → Json) :
    List (Str × Json) :=
  kvs.map fun kv => if kv.1 = k then (kv.1, f kv.2) else kv

/-- Update the element at an index of an array in place (no effect when
out of range, where Python would raise `IndexError`). -/
def arrUpdate (xs : List Json) (i : Nat) (f : Json → Json) : List Json :=
  (xs.enum).map fun ix => if ix.1 = i then f ix.2 else ix.2

/-- `current[last] = value` at the end of `JSONParser._set_value`:
assignment into a dict (adding the key when absent) or a list. -/
def jsonAssign (j : Json) (last : Str) (v : Str) : Json :=
  match j with
  | .jobj kvs =>
    .jobj (if kvs.any (fun kv => kv.1 = last)
           then objUpdate kvs last (fun _ => .jstr v)
           else kvs ++ [(last, .jstr v)])
  | .jarr xs =>
    if pyIsDigitStr last then .jarr (arrUpdate xs (strToNat last)
      (fun _ => .jstr v))
    else .jarr xs
  | other => other

/-- The walk of `JSONParser._set_value`: descend through all parts but the
last two, then assign `parts[-1]` on the node reached (for a one-part path
the loop body never runs and nothing is assigned — this mirrors the
source). -/
def jsonSetGo : List Str → Str → Str → Json → Json
  | [], last, v, j => jsonAssign j last v
  | p :: ps, last, v, j =>
    match j with
    | .jobj kvs => .jobj (objUpdate kvs p (jsonSetGo ps last v))
    | .jarr xs =>
      if pyIsDigitStr p then
        .jarr (arrUpdate xs (strToNat p) (jsonSetGo ps last v))
      else .jarr xs
    | other => other

/-- `JSONParser._set_value`:
`path.replace("][", ".").replace("[", ".").replace("]", "").split(".")`,
then the walk above. -/
def jsonSetValue (j : Json) (path : Str) (v : Str) : Json :=
  let parts :=
    (replaceAll (replaceAll (replaceAll path "][".toList ".".toList)
      "[".toList ".".toList) "]".toList []).splitOn '.'
  if parts.length ≤ 1 then j
  else jsonSetGo (parts.take (parts.length - 2))
    ((parts.getLastD []) ) v j

/-- `json.dumps(..., ensure_ascii=False)` escaping of one character. -/
def jsonEscChar (c : Char) : Str :=
  if c = '"' then ['\\', '"']
  else if c = '\\' then ['\\', '\\']
  else if c = '\n' then ['\\', 'n']
  else if c = '\r' then ['\\', 'r']
  else if c = '\t' then ['\\', 't']
  else if c.toNat < 32 then
    "\\u00".toList ++ [hexDigitChar (c.toNat / 16), hexDigitChar c.toNat]
  else [c]

def jsonEscape (s : Str) : Str := '"' :: s.flatMap jsonEscChar ++ ['"']

def indentOf (level : Nat) : Str := List.replicate (2 * level) ' '

mutual

/-- `json.dumps(structure, ensure_ascii=False, indent=2)`. -/
def jsonDumps : Json → Nat → Str
  | .jstr s, _ => jsonEscape s
  | .jnum raw, _ => raw
  | .jbool true, _ => "true".toList
  | .jbool false, _ => "false".toList
  | .jnull, _ => "null".toList
  | .jarr [], _ => "[]".toList
  | .jarr (x :: xs), level =>
    ('[' :: '\n' :: jsonDumpsItems (x :: xs) (level + 1)) ++
      ('\n' :: indentOf level) ++ "]".toList
  | .jobj [], _ => "{}".toList
  | .jobj (kv :: kvs), level =>
    ('{' :: '\n' :: jsonDumpsMembers (kv :: kvs) (level + 1)) ++
      ('\n' :: indentOf level) ++ "\x7d".toList

def jsonDumpsItems : List Json → Nat → Str
  | [], _ => []
  | [x], level => indentOf level ++ jsonDumps x level
  | x :: y :: xs, level =>
    indentOf level ++ jsonDumps x level ++ (',' :: '\n' ::
      jsonDumpsItems (y :: xs) level)

def jsonDumpsMembers : List (Str × Json) → Nat → Str
  | [], _ => []
  | [(k, v)], level =>
    indentOf level ++ jsonEscape k ++ (':' :: ' ' :: jsonDumps v level)
  | (k, v) :: kv :: kvs, level =>
    indentOf level ++ jsonEscape k ++ (':' :: ' ' :: jsonDumps v level) ++
      (',' :: '\n' :: jsonDumpsMembers (kv :: kvs) level)

end

/-- `JSONParser.parse`: decode, extract string leaves, join with
newlines; decoding failure is the `ValueError("Invalid JSON: ...")`. -/
def jsonParseFn (content : Str) :
    Option (Str × Json × List Str) :=
  (jsonLoads content).map fun data =>
    let tps := extractTexts data []
    (List.intercalate "\n".toList (tps.map Prod.fst), data,
      tps.map Prod.snd)

/-- `JSONParser.reconstruct`: write each line of the sanitized text back at
its path, re-serialize with `indent=2`. -/
def jsonReconstructFn (text : Str) (tree : Json) (paths : List Str) : Str :=
  let pairs := (text.splitOn '\n').zip paths
  jsonDumps (pairs.foldl (fun st lp => jsonSetValue st lp.2 lp.1) tree) 0

/-! ## HTML parser (`HTMLExtractor`, `HTMLParser`) -/

/-- Tag-boundary events. -/
inductive HtmlEv where
  | startT (name : Str)
  | endT (name : Str)
  | dataT (s : Str)
deriving DecidableEq, Repr

/-- Modelled from the spec: the standard library `html.parser` tokenizer
(an external collaborator) — the document is cut at `<...>` tag boundaries
into start-tag, end-tag and data events; tag names are lower-cased;
attributes are not needed here.  Fuel `≥ length + 1` suffices. -/
def htmlTokenize : Nat → Str → List HtmlEv
  | 0, _ => []
  | _ + 1, [] => []
  | fuel + 1, '<' :: rest =>
    let inner := rest.takeWhile (fun c => c ≠ '>')
    if inner.length = rest.length then [.dataT ('<' :: rest)]
    else
      let after := rest.drop (inner.length + 1)
      let ev := match inner with
        | '/' :: nm => HtmlEv.endT ((nm.takeWhile (fun c => c ≠ ' ')).map
            Char.toLower)
        | nm => HtmlEv.startT ((nm.takeWhile
            (fun c => c ≠ ' ' && c ≠ '/')).map Char.toLower)
      ev :: htmlTokenize fuel after
  | fuel + 1, c :: rest =>
    let d := (c :: rest).takeWhile (fun ch => ch ≠ '<')
    .dataT d :: htmlTokenize fuel ((c :: rest).drop d.length)

/-- `HTMLExtractor` state: collected texts, pending text pieces, tag
stack (names), and `(index, stack)` positions. -/
structure ExtState where
  texts : List Str
  currentText : List Str
  tagStack : List Str
  tagPositions : List (Nat × List Str)
deriving Repr

/-- The flush common to `handle_starttag` / `handle_endtag` /
`get_results`: join and strip the pending text; record it when nonempty. -/
def extFlush (st : ExtState) : ExtState :=
  if st.currentText.isEmpty then st
  else
    let text := pyStrip st.currentText.flatten
    if text.isEmpty then { st with currentText := [] }
    else
      { st with
        texts := st.texts ++ [text],
        currentText := [],
        tagPositions := st.tagPositions ++
          [(st.texts.length, st.tagStack)] }

/-- One `HTMLExtractor` event handler step. -/
def extStep (st : ExtState) : HtmlEv → ExtState
  | .startT tag =>
    let st := extFlush st
    { st with tagStack := st.tagStack ++ [tag] }
  | .endT tag =>
    let st := extFlush st
    if st.tagStack ≠ [] ∧ st.tagStack.getLast? = some tag then
      { st with tagStack := st.tagStack.dropLast }
    else st
  | .dataT d =>
    if (pyStrip d).isEmpty then st
    else { st with currentText := st.currentText ++ [d] }

/-- `HTMLParser.parse`: run the extractor, join texts with newlines; the
metadata stores the original content and the text positions. -/
def htmlParseFn (content : Str) : Str × List Str × List (Nat × List Str) :=
  let st := (htmlTokenize (content.length + 1) content).foldl extStep
    ⟨[], [], [], []⟩
  let st := extFlush st
  (List.intercalate "\n".toList st.texts, st.texts, st.tagPositions)

/-- `html.escape` (with quotes, the default). -/
def htmlEscapeChar (c : Char) : Str :=
  if c = '&' then "&amp;".toList
  else if c = '<' then "&lt;".toList
  else if c = '>' then "&gt;".toList
  else if c = '"' then "&quot;".toList
  else if c = '\'' then "&#x27;".toList
  else [c]

def htmlEscape (s : Str) : Str := s.flatMap htmlEscapeChar

/-- `HTMLParser.reconstruct`: both source branches return
`html.escape(text)` (the V1 implementation does not rebuild the tag
structure). -/
def htmlReconstructFn (text : Str) : Str := htmlEscape text

/-! ## `core/pipeline.py` — `SanitizationPipeline.process` and
`core/sanitizer.py` — `sanitize` -/

/-- Parser metadata, by parser.  `jsonM` stores the decoded tree
(`"structure"`), the paths and the original content; `htmlM` the original
content and text positions; the plain parser returns the empty dict. -/
inductive PMeta where
  | textM
  | jsonM (tree : Json) (paths : List Str) (original : Str)
  | htmlM (original : Str) (positions : List (Nat × List Str))

/-- Python truthiness of the metadata dict. -/
def pmetaTruthy : PMeta → Bool
  | .textM => false
  | _ => true

/-- The two `ValueError`s `sanitize` re-raises: the length guard and a
parser failure. -/
inductive SanErr where
  | inputTooLarge
  | invalidFormat
deriving DecidableEq, Repr

/-- Whitelist entry search: `re.compile(rf'\b{re.escape(entry)}\b',
re.IGNORECASE).search(text)` — a case-insensitive occurrence of the
(escaped, hence literal) entry with word boundaries on both sides. -/
def wordBoundedSearchCI (entry t : Str) : Bool :=
  (List.range (t.length + 1)).any fun i =>
    decide (i + entry.length ≤ t.length) &&
    decide ((strSlice t i (i + entry.length)).map Char.toLower =
      entry.map Char.toLower) &&
    atBoundary t i && atBoundary t (i + entry.length)

/-- `SanitizationPipeline._apply_whitelist`. -/
def applyWhitelist (wl : List Str) (dets : List PDetection) :
    List PDetection :=
  dets.filter fun d => !wl.any (fun entry => wordBoundedSearchCI entry d.text)

/-- `SanitizationPipeline.process`.  `phoneValid` and `tagResult` are the
two external collaborators (the `phonenumbers` library and the NER model
pipeline).  The length guard comes first; then the parser selected by
`content_type` (any unknown type falls back to plain text); then regex and
NER detection, whitelist filtering, and a stable sort by `start`. -/
def pipelineProcess (phoneValid : Str → Bool)
    (tagResult : Except String (List RawEntity)) (cfg : SanitizerConfig)
    (content : Str) (ct : String) :
    Except SanErr (Str × List PDetection × PMeta) :=
  if cfg.maxInputCharacters < content.length then .error .inputTooLarge
  else
    let parsed : Except SanErr (Str × PMeta) :=
      if ct = "json" then
        match jsonParseFn content with
        | some (text, tree, paths) => .ok (text, .jsonM tree paths content)
        | none => .error .invalidFormat
      else if ct = "html" then
        match htmlParseFn content with
        | (text, _, positions) => .ok (text, .htmlM content positions)
      else .ok (content, .textM)
    match parsed with
    | .error e => .error e
    | .ok (text, meta) =>
      let regexDets := if cfg.enableRegex then
          (regexDetect phoneValid text).map fun d =>
            (⟨d.type, d.text, d.start, d.stop, 1, "regex".toList⟩ :
              PDetection)
        else []
      let nerDets := if cfg.enableNer then
          (nerDetect tagResult text cfg.confidenceThreshold).map fun d =>
            (⟨d.type, d.word, d.start, d.stop, d.score, "ner".toList⟩ :
              PDetection)
        else []
      let filtered := applyWhitelist cfg.whitelist (regexDets ++ nerDets)
      .ok (text, stableSort (fun a b => decide (a.start ≤ b.start)) filtered,
        meta)

/-- `core/sanitizer.py sanitize`: pipeline, deduplication, masking, format
reconstruction for non-text types with truthy metadata.  The re-raised
`ValueError`s are the `SanErr` values; no other exception arises in the
embedded fragment. -/
def sanitizeWith (phoneValid : Str → Bool)
    (tagResult : Except String (List RawEntity)) (cfg : SanitizerConfig)
    (content : Str) (ct : String) :
    Except SanErr (Str × List (Str × Str)) :=
  match pipelineProcess phoneValid tagResult cfg content ct with
  | .error e => .error e
  | .ok (text, dets, meta) =>
    let uniq := deduplicateDetections dets
    let mm := maskText ⟨cfg.placeholderPre, cfg.placeholderSuf⟩ text uniq
    if ct ≠ "text" ∧ pmetaTruthy meta then
      match meta with
      | .jsonM tree paths _ => .ok (jsonReconstructFn mm.1 tree paths, mm.2)
      | .htmlM _ _ => .ok (htmlReconstructFn mm.1, mm.2)
      | .textM => .ok mm
    else .ok mm

/-- Modelled from the spec: the external `phonenumbers` collaborator's
validity check.  No claim depends on its value — the concrete inputs used
below contain no match of the phone pattern — so the model rejects
everything. -/
def phonenumbersModel : Str → Bool := fun _ => false

/-- Modelled from the spec: an NER model that fails to load
(`ModelUnavailable`); per §6.2 such a failure must yield no candidates. -/
def nerUnavailable : Except String (List RawEntity) :=
  .error "Failed to load NER model"

/-! ## `detectors.py` (legacy module) — `Detector._deduplicate` -/

/-- `Detector._get_type_priority`. -/
def typePriority (t : Str) : Nat :=
  if t = "EMAIL".toList ∨ t = "SSN".toList ∨ t = "CREDIT_CARD".toList then 10
  else if t = "PHONE".toList ∨ t = "PHONE_US".toList ∨ t = "IPV4".toList ∨
    t = "IPV6".toList then 8
  else if t = "PERSON".toList ∨ t = "ORG".toList ∨
    t = "ORGANIZATION".toList ∨ t = "GPE".toList ∨ t = "LOCATION".toList
    then 5
  else 1

/-- The legacy resolver's sort key `(start, priority)`. -/
def legacyLe (a b : RawDet) : Bool :=
  decide (a.start < b.start) ||
    (decide (a.start = b.start) &&
      decide (typePriority a.type ≤ typePriority b.type))

/-- `Detector._deduplicate` scan (`acc` holds the emitted result in
reverse): accept when not overlapping; on overlap, replace the previous
detection whole when the new one has strictly higher priority; otherwise
drop.  No candidate is ever truncated here. -/
def legacyDedupGo : List RawDet → Int → List RawDet → List RawDet
  | acc, _, [] => acc.reverse
  | acc, lastEnd, d :: rest =>
    if lastEnd ≤ (d.start : Int) then
      legacyDedupGo (d :: acc) (d.stop : Int) rest
    else if !acc.isEmpty &&
        decide (typePriority (acc.headD d).type < typePriority d.type) then
      legacyDedupGo (d :: acc.tail) (d.stop : Int) rest
    else legacyDedupGo acc lastEnd rest

/-- `Detector._deduplicate`. -/
def legacyDedup (ds : List RawDet) : List RawDet :=
  if ds.isEmpty then [] else legacyDedupGo [] (-1) (stableSort legacyLe ds)

/-! ## `PlainTextParser` -/

/-- `PlainTextParser.parse`: the identity, with empty metadata. -/
def plainParseFn (content : Str) : Str × PMeta := (content, .textM)

/-- `PlainTextParser.reconstruct`: the identity. -/
def plainReconstructFn (text : Str) : Str := text

/-! ## The spec's placeholder grammar (§6.2)

`<<[A-Z][A-Z0-9_]*_[0-9a-f]{6,8}>>` — the reference predicate the claims
compare the implementation against. -/

def placeholderGrammarRe : RE :=
  reCat [reLit "<<".toList,
         reCls (fun c => 'A' ≤ c && c ≤ 'Z'),
         reRepU (fun c => ('A' ≤ c && c ≤ 'Z') || c.isDigit || c = '_') 0,
         reLit "_".toList,
         reRep (fun c => c.isDigit || ('a' ≤ c && c ≤ 'f')) 6 8,
         reLit ">>".toList]

/-- Full-match against the spec's placeholder grammar. -/
def placeholderGrammar (s : Str) : Bool :=
  (placeholderGrammarRe s 0).any (fun e => e = s.length)

/-! # Claims -/

/-- C5.  For every input longer than `max_input_characters`, `sanitize`
fails with the length-bound `ValueError` (`InputTooLarge`) — for every
content type, before any parsing, with no output returned. -/
theorem C5_length_bound (phoneValid : Str → Bool)
    (tagResult : Except String (List RawEntity)) (cfg : SanitizerConfig)
    (content : Str) (ct : String)
    (h : cfg.maxInputCharacters < content.length) :
    sanitizeWith phoneValid tagResult cfg content ct =
      .error .inputTooLarge := by
  unfold sanitizeWith pipelineProcess
  rw [if_pos h]

/-- Witness for C5: a 7-character input against a limit of 5, with a
content type (`json`) whose parser would reject the content — the error is
still the length bound. -/
theorem C5_length_bound_witness :
    ({ defaultConfig with maxInputCharacters := 5
       : SanitizerConfig }).maxInputCharacters < "toolong".toList.length ∧
    sanitizeWith phonenumbersModel nerUnavailable
      { defaultConfig with maxInputCharacters := 5 } "toolong".toList
      "json" = .error .inputTooLarge :=
  ⟨by decide,
   C5_length_bound phonenumbersModel nerUnavailable
     { defaultConfig with maxInputCharacters := 5 } "toolong".toList "json"
     (by decide)⟩

/-- C9.  When the NER model load or call fails (any raised exception), the
NER detector returns no candidates, and `sanitize` behaves exactly as with
NER disabled (regex-only detection); no failure reaches the caller — the
result is the same `Except` value, never an error caused by NER. -/
theorem C9_ner_failure_swallowed :
    (∀ (err : String) (text : Str) (thr : ℚ),
      nerDetect (.error err) text thr = []) ∧
    (∀ (phoneValid : Str → Bool) (err : String) (cfg : SanitizerConfig)
      (content : Str) (ct : String),
      sanitizeWith phoneValid (.error err) cfg content ct =
        sanitizeWith phoneValid nerUnavailable
          { cfg with enableNer := false } content ct) := by
  constructor
  · intro err text thr
    unfold nerDetect
    by_cases h : text.isEmpty <;> simp [h]
  · intro phoneValid err cfg content ct
    unfold sanitizeWith pipelineProcess
    by_cases hlen : cfg.maxInputCharacters < content.length
    · rw [if_pos hlen, if_pos hlen]
    · rw [if_neg hlen, if_neg hlen]
      have hner : ∀ (t : Str),
          nerDetect (Except.error err) t cfg.confidenceThreshold = [] := by
        intro t
        unfold nerDetect
        by_cases h : t.isEmpty <;> simp [h]
      simp only [hner, List.map_nil, ite_self, Bool.false_eq_true,
        if_false]

/-- C7, counterexample.  The key `<<bad>>` violates the spec's grammar
`<<[A-Z][A-Z0-9_]*_[0-9a-f]{6,8}>>`, yet `rehydrate` accepts the map and
returns successfully instead of failing: the implementation checks only
the prefix/suffix shape. -/
theorem C7_counterexample :
    placeholderGrammar "<<bad>>".toList = false ∧
    rehydrateFn "x".toList [("<<bad>>".toList, "y".toList)] =
      .ok "x".toList := by
  constructor
  · decide
  · rfl

/-- C7, amended.  `rehydrate` needs only the map (it is a function of the
masked text and the map alone), and it fails exactly when some key does
not start with the default prefix `<<` or does not end with the default
suffix `>>` — the full placeholder grammar is not enforced. -/
theorem C7_amended_validation (masked : Str) (map : List (Str × Str)) :
    (∃ r, rehydrateFn masked map = .ok r) ↔
      ∀ kv ∈ map, "<<".toList.isPrefixOf kv.1 ∧
        ">>".toList.isSuffixOf kv.1 := by
  unfold rehydrateFn validateRehydrationMap
  by_cases h : List.all map
      (fun kv => defaultEngine.pre.isPrefixOf kv.1 &&
        defaultEngine.suf.isSuffixOf kv.1) = true
  · rw [if_pos h]
    simp only [List.all_eq_true, Bool.and_eq_true] at h
    constructor
    · intro _ kv hkv
      have := h kv hkv
      exact ⟨this.1, this.2⟩
    · intro _
      exact ⟨_, rfl⟩
  · rw [if_neg h]
    constructor
    · intro ⟨r, hr⟩
      exact absurd hr (by simp)
    · intro hall
      exfalso
      apply h
      simp only [List.all_eq_true, Bool.and_eq_true]
      intro kv hkv
      exact ⟨(hall kv hkv).1, (hall kv hkv).2⟩

theorem regexDedupGo_subset :
    ∀ (l : List RawDet) (lastEnd : Int), ∀ o ∈ regexDedupGo lastEnd l,
      o ∈ l := by
  intro l
  induction l with
  | nil => intro lastEnd o ho; simp [regexDedupGo] at ho
  | cons d rest ih =>
    intro lastEnd o ho
    unfold regexDedupGo at ho
    by_cases h : lastEnd ≤ (d.start : Int)
    · rw [if_pos h] at ho
      rcases List.mem_cons.mp ho with rfl | ho'
      · exact List.mem_cons_self _ _
      · exact List.mem_cons_of_mem _ (ih _ _ ho')
    · rw [if_neg h] at ho
      exact List.mem_cons_of_mem _ (ih _ _ ho)

theorem regexDedup_subset (ds : List RawDet) :
    ∀ o ∈ regexDedup ds, o ∈ ds := by
  intro o ho
  unfold regexDedup at ho
  by_cases h : ds.isEmpty
  · rw [if_pos h] at ho; simp at ho
  · rw [if_neg h] at ho
    exact (stableSort_perm regexDedupLe ds).subset
      (regexDedupGo_subset _ _ _ ho)

/-- C8, counterexample.  The active validator
(`regex_detector.RegexDetector._validate_credit_card`) accepts a string of
twenty zeros — twenty digits, more than the 13–19 the claim allows — since
it checks no upper length bound; the legacy `_luhn_check` does check 19. -/
theorem C8_counterexample :
    validateCreditCard (List.replicate 20 '0') = true ∧
    ((List.replicate 20 '0' : Str).filter isDigitC).length = 20 ∧
    luhnCheck (List.replicate 20 '0') = false := by
  refine ⟨by decide, by decide, by decide⟩

/-- C8, amended.  The active validator accepts exactly the strings whose
digit content has length at least 13 (no upper bound) and Luhn total
divisible by 10; the legacy `_luhn_check` enforces the claimed 13–19
range; and every CREDIT_CARD candidate emitted by the regex detector
passed the active validator — in particular no Luhn-failing 16-digit
sequence is ever emitted as a CREDIT_CARD candidate. -/
theorem C8_amended_luhn :
    (∀ s : Str, validateCreditCard s = true ↔
      (13 ≤ (s.filter isDigitC).length ∧
        luhnSum (s.filter isDigitC).reverse % 10 = 0)) ∧
    (∀ s : Str, luhnCheck s = true ↔
      (13 ≤ (s.filter isDigitC).length ∧ (s.filter isDigitC).length ≤ 19 ∧
        luhnSumLegacy (s.filter isDigitC).reverse % 10 = 0)) ∧
    (∀ (phoneValid : Str → Bool) (s : Str), ∀ d ∈ regexDetect phoneValid s,
      d.type = "CREDIT_CARD".toList → validateCreditCard d.text = true) := by
  refine ⟨?_, ?_, ?_⟩
  · intro s
    unfold validateCreditCard
    by_cases h : (s.filter isDigitC).isEmpty ∨ (s.filter isDigitC).length < 13
    · have hb : ((s.filter isDigitC).isEmpty ||
          decide ((s.filter isDigitC).length < 13)) = true := by
        rcases h with h | h
        · simp [h]
        · simp [h]
      simp only [hb, if_true]
      constructor
      · intro hfalse; cases hfalse
      · intro ⟨h13, _⟩
        rcases h with h | h
        · rw [List.isEmpty_iff] at h
          rw [h] at h13; simp at h13
        · omega
    · push_neg at h
      have hb : ((s.filter isDigitC).isEmpty ||
          decide ((s.filter isDigitC).length < 13)) = false := by
        simp only [Bool.or_eq_false_iff]
        refine ⟨by simpa using h.1, by simpa using h.2⟩
      simp only [hb, if_false]
      constructor
      · intro hd
        refine ⟨by omega, by simpa using hd⟩
      · intro ⟨_, hl⟩
        simpa using hl
  · intro s
    unfold luhnCheck
    by_cases h : (s.filter isDigitC).length < 13 ∨
        19 < (s.filter isDigitC).length
    · have hb : (decide ((s.filter isDigitC).length < 13) ||
          decide (19 < (s.filter isDigitC).length)) = true := by
        rcases h with h | h
        · simp [h]
        · simp [h]
      simp only [hb, if_true]
      constructor
      · intro hfalse; cases hfalse
      · intro ⟨h13, h19, _⟩; omega
    · push_neg at h
      have hb : (decide ((s.filter isDigitC).length < 13) ||
          decide (19 < (s.filter isDigitC).length)) = false := by
        simp only [Bool.or_eq_false_iff]
        refine ⟨by simpa using h.1, by simpa using h.2⟩
      simp only [hb, if_false]
      constructor
      · intro hd
        refine ⟨by omega, by omega, by simpa using hd⟩
      · intro ⟨_, _, hl⟩
        simpa using hl
  · intro phoneValid s d hd htype
    have hmem := regexDedup_subset _ _ hd
    simp only [List.mem_append] at hmem
    rcases hmem with (((he | hcc) | h4) | h6) | hph
    · rcases List.mem_map.mp he with ⟨ie, _, rfl⟩
      have hne : ("EMAIL".toList : Str) ≠ "CREDIT_CARD".toList := by decide
      exact absurd htype hne
    · rcases List.mem_filterMap.mp hcc with ⟨ie, _, hval⟩
      by_cases hv : validateCreditCard (strSlice s ie.1 ie.2) = true
      · rw [if_pos hv] at hval
        cases hval
        simpa using hv
      · rw [if_neg hv] at hval
        cases hval
    · rcases List.mem_map.mp h4 with ⟨ie, _, rfl⟩
      have hne : ("IPV4".toList : Str) ≠ "CREDIT_CARD".toList := by decide
      exact absurd htype hne
    · rcases List.mem_map.mp h6 with ⟨ie, _, rfl⟩
      have hne : ("IPV6".toList : Str) ≠ "CREDIT_CARD".toList := by decide
      exact absurd htype hne
    · rcases List.mem_filterMap.mp hph with ⟨ie, _, hval⟩
      by_cases hv : phoneValid (strSlice s ie.1 ie.2) = true
      · rw [if_pos hv] at hval
        cases hval
        have hne : ("PHONE".toList : Str) ≠ "CREDIT_CARD".toList := by decide
        exact absurd htype hne
      · rw [if_neg hv] at hval
        cases hval

/-- Witness for C8: on `"card 4111111111111111"` the detector emits one
CREDIT_CARD candidate, and the amended theorem applies to it: the
candidate's text passes the validator (and indeed the Luhn-valid test
number has 16 digits and checksum 0). -/
theorem C8_amended_luhn_witness :
    (⟨"CREDIT_CARD".toList, "4111111111111111".toList, 5, 21⟩ : RawDet) ∈
      regexDetect phonenumbersModel "card 4111111111111111".toList ∧
    validateCreditCard "4111111111111111".toList = true :=
  ⟨by decide,
   C8_amended_luhn.2.2 phonenumbersModel "card 4111111111111111".toList
     ⟨"CREDIT_CARD".toList, "4111111111111111".toList, 5, 21⟩ (by decide)
     (by decide)⟩

theorem rmapInsert_keys (m : List (Str × Str)) (k v : Str) :
    (rmapInsert m k v).map Prod.fst =
      if k ∈ m.map Prod.fst then m.map Prod.fst
      else m.map Prod.fst ++ [k] := by
  induction m with
  | nil => simp [rmapInsert]
  | cons kv0 m' ih =>
    obtain ⟨k0, v0⟩ := kv0
    by_cases h : k0 = k
    · subst h
      simp [rmapInsert]
    · simp only [rmapInsert, if_neg h, List.map_cons, ih]
      by_cases hk : k ∈ m'.map Prod.fst
      · rw [if_pos hk, if_pos (by simp [hk])]
      · rw [if_neg hk, if_neg (by simp [hk, Ne.symm h])]
        simp

theorem rmapInsert_keys_nodup (m : List (Str × Str)) (k v : Str)
    (h : (m.map Prod.fst).Nodup) :
    ((rmapInsert m k v).map Prod.fst).Nodup := by
  rw [rmapInsert_keys]
  by_cases hk : k ∈ m.map Prod.fst
  · rw [if_pos hk]; exact h
  · rw [if_neg hk]
    refine List.Nodup.append h (List.nodup_singleton k) ?_
    intro a ha hb
    rw [List.mem_singleton] at hb
    subst hb
    exact hk ha

theorem rmapInsert_key_mem (m : List (Str × Str)) (k v : Str) :
    k ∈ (rmapInsert m k v).map Prod.fst := by
  rw [rmapInsert_keys]
  by_cases hk : k ∈ m.map Prod.fst
  · rw [if_pos hk]; exact hk
  · rw [if_neg hk]; simp

theorem rmapInsert_key_mono (m : List (Str × Str)) (k v k' : Str)
    (h : k' ∈ m.map Prod.fst) :
    k' ∈ (rmapInsert m k v).map Prod.fst := by
  rw [rmapInsert_keys]
  by_cases hk : k ∈ m.map Prod.fst
  · rw [if_pos hk]; exact h
  · rw [if_neg hk]; simp [h]

/-- The `mask_text` loop body. -/
def maskStep (e : MaskingEngine) (mm : Str × List (Str × Str))
    (d : PDetection) : Str × List (Str × Str) :=
  let ph := generatePlaceholder e d.type d.text
  (mm.1.take d.start ++ ph ++ mm.1.drop d.stop, rmapInsert mm.2 ph d.text)

theorem maskText_eq_foldl (e : MaskingEngine) (text : Str)
    (ds : List PDetection) (h : ¬ ds.isEmpty = true) :
    maskText e text ds =
      (stableSort (fun a b => decide (b.start ≤ a.start)) ds).foldl
        (maskStep e) (text, []) := by
  unfold maskText
  rw [if_neg h]
  rfl

theorem maskFold_keys_nodup (e : MaskingEngine) :
    ∀ (ds : List PDetection) (mm : Str × List (Str × Str)),
      (mm.2.map Prod.fst).Nodup →
      ((ds.foldl (maskStep e) mm).2.map Prod.fst).Nodup := by
  intro ds
  induction ds with
  | nil => intro mm h; simpa using h
  | cons d rest ih =>
    intro mm h
    simp only [List.foldl_cons]
    exact ih _ (rmapInsert_keys_nodup _ _ _ h)

theorem maskFold_key_mono (e : MaskingEngine) :
    ∀ (ds : List PDetection) (mm : Str × List (Str × Str)) (k : Str),
      k ∈ mm.2.map Prod.fst →
      k ∈ ((ds.foldl (maskStep e) mm).2.map Prod.fst) := by
  intro ds
  induction ds with
  | nil => intro mm k h; simpa using h
  | cons d rest ih =>
    intro mm k h
    simp only [List.foldl_cons]
    exact ih _ _ (rmapInsert_key_mono _ _ _ _ h)

theorem maskFold_key_present (e : MaskingEngine) :
    ∀ (ds : List PDetection) (mm : Str × List (Str × Str)) (d : PDetection),
      d ∈ ds →
      generatePlaceholder e d.type d.text ∈
        ((ds.foldl (maskStep e) mm).2.map Prod.fst) := by
  intro ds
  induction ds with
  | nil => intro mm d h; simp at h
  | cons d0 rest ih =>
    intro mm d h
    simp only [List.foldl_cons]
    rcases List.mem_cons.mp h with rfl | h'
    · exact maskFold_key_mono e rest _ _ (rmapInsert_key_mem _ _ _)
    · exact ih _ _ h'

/-- C6.  Placeholder synthesis depends only on the entity kind and the
original text: any two detections of the same kind and text (within one
call, or across calls — the synthesizer is one pure function) get the
identical placeholder; the rehydration map never holds two entries for one
placeholder (its keys are distinct by construction), and the placeholder
of every masked detection is a key of the map — so N occurrences of one
value yield N identical placeholders and a single map entry. -/
theorem C6_determinism (e : MaskingEngine) (text : Str)
    (ds : List PDetection) :
    (∀ d1 ∈ ds, ∀ d2 ∈ ds, d1.type = d2.type → d1.text = d2.text →
      generatePlaceholder e d1.type d1.text =
        generatePlaceholder e d2.type d2.text) ∧
    ((maskText e text ds).2.map Prod.fst).Nodup ∧
    (∀ d ∈ ds, generatePlaceholder e d.type d.text ∈
      (maskText e text ds).2.map Prod.fst) := by
  refine ⟨?_, ?_, ?_⟩
  · intro d1 _ d2 _ ht hx
    rw [ht, hx]
  · by_cases h : ds.isEmpty = true
    · unfold maskText
      rw [if_pos h]
      simp
    · rw [maskText_eq_foldl e text ds h]
      exact maskFold_keys_nodup e _ _ (by simp)
  · intro d hd
    have h : ¬ ds.isEmpty = true := by
      cases ds with
      | nil => simp at hd
      | cons a l => simp
    rw [maskText_eq_foldl e text ds h]
    exact maskFold_key_present e _ _ d
      (((stableSort_perm _ ds).mem_iff).mpr hd)

/-- Witness for C6: the value `john@test.com` appears twice in
`"Email john@test.com twice: john@test.com"`; both detections receive the
same placeholder and the map has exactly one entry. -/
theorem C6_determinism_witness :
    generatePlaceholder defaultEngine "EMAIL".toList "john@test.com".toList
      = generatePlaceholder defaultEngine "EMAIL".toList
        "john@test.com".toList ∧
    ((maskText defaultEngine
      "Email john@test.com twice: john@test.com".toList
      [⟨"EMAIL".toList, "john@test.com".toList, 6, 19, 1, "regex".toList⟩,
       ⟨"EMAIL".toList, "john@test.com".toList, 27, 40, 1,
        "regex".toList⟩]).2.map Prod.fst).Nodup ∧
    generatePlaceholder defaultEngine "EMAIL".toList "john@test.com".toList
      ∈ (maskText defaultEngine
        "Email john@test.com twice: john@test.com".toList
        [⟨"EMAIL".toList, "john@test.com".toList, 6, 19, 1, "regex".toList⟩,
         ⟨"EMAIL".toList, "john@test.com".toList, 27, 40, 1,
          "regex".toList⟩]).2.map Prod.fst :=
  ⟨(C6_determinism defaultEngine
      "Email john@test.com twice: john@test.com".toList
      [⟨"EMAIL".toList, "john@test.com".toList, 6, 19, 1, "regex".toList⟩,
       ⟨"EMAIL".toList, "john@test.com".toList, 27, 40, 1,
        "regex".toList⟩]).1
      ⟨"EMAIL".toList, "john@test.com".toList, 6, 19, 1, "regex".toList⟩
      (by decide)
      ⟨"EMAIL".toList, "john@test.com".toList, 27, 40, 1, "regex".toList⟩
      (by decide) rfl rfl,
   (C6_determinism defaultEngine
      "Email john@test.com twice: john@test.com".toList
      [⟨"EMAIL".toList, "john@test.com".toList, 6, 19, 1, "regex".toList⟩,
       ⟨"EMAIL".toList, "john@test.com".toList, 27, 40, 1,
        "regex".toList⟩]).2.1,
   (C6_determinism defaultEngine
      "Email john@test.com twice: john@test.com".toList
      [⟨"EMAIL".toList, "john@test.com".toList, 6, 19, 1, "regex".toList⟩,
       ⟨"EMAIL".toList, "john@test.com".toList, 27, 40, 1,
        "regex".toList⟩]).2.2
      ⟨"EMAIL".toList, "john@test.com".toList, 27, 40, 1, "regex".toList⟩
      (by decide)⟩

theorem dedupLe_start_le {a b : PDetection} (h : dedupLe a b = true) :
    a.start ≤ b.start := by
  unfold dedupLe at h
  simp only [Bool.or_eq_true, Bool.and_eq_true, decide_eq_true_eq] at h
  omega

theorem dedupLe_trans (a b c : PDetection) (h1 : dedupLe a b = true)
    (h2 : dedupLe b c = true) : dedupLe a c = true := by
  unfold dedupLe at *
  simp only [Bool.or_eq_true, Bool.and_eq_true, decide_eq_true_eq] at *
  omega

theorem dedupLe_total (a b : PDetection) :
    dedupLe a b = true ∨ dedupLe b a = true := by
  unfold dedupLe
  simp only [Bool.or_eq_true, Bool.and_eq_true, decide_eq_true_eq]
  omega

/-- Every span the resolver's scan emits starts at or after `B`, provided
`B` bounds the state `lastEnd` or every remaining candidate's start. -/
theorem dedupGo_start_lb :
    ∀ (l : List PDetection) (L B : Int),
      l.Pairwise (fun a b => dedupLe a b = true) →
      (B ≤ L ∨ ∀ x ∈ l, B ≤ (x.start : Int)) →
      ∀ o ∈ dedupGo L l, B ≤ (o.start : Int) := by
  intro l
  induction l with
  | nil => intro L B _ _ o ho; simp [dedupGo] at ho
  | cons d rest ih =>
    intro L B hp hB o ho
    rcases List.pairwise_cons.mp hp with ⟨hd, hrest⟩
    have hBstart : B ≤ (d.start : Int) ∨ (¬ B ≤ L → False) := by
      rcases hB with h | h
      · exact Or.inr (fun hc => hc h)
      · exact Or.inl (h d (List.mem_cons_self d rest))
    have hreststarts : ∀ x ∈ rest, (d.start : Int) ≤ (x.start : Int) := by
      intro x hx
      exact_mod_cast dedupLe_start_le (hd x hx)
    unfold dedupGo at ho
    by_cases hL : L ≤ (d.start : Int)
    · rw [if_pos hL] at ho
      have hBd : B ≤ (d.start : Int) := by
        rcases hB with h | h
        · exact le_trans h hL
        · exact h d (List.mem_cons_self d rest)
      rcases List.mem_cons.mp ho with rfl | ho'
      · exact hBd
      · refine ih (d.stop : Int) B hrest (Or.inr ?_) o ho'
        intro x hx
        exact le_trans hBd (hreststarts x hx)
    · rw [if_neg hL] at ho
      have hds : (d.start : Int) < L := by omega
      have hB' : B ≤ L ∨ ∀ x ∈ rest, B ≤ (x.start : Int) := by
        rcases hB with h | h
        · exact Or.inl h
        · exact Or.inr (fun x hx => h x (List.mem_cons_of_mem d hx))
      by_cases hstop : L < (d.stop : Int)
      · rw [if_pos hstop] at ho
        by_cases hemp : (d.text.drop (L.toNat - d.start)).isEmpty = true
        · rw [if_pos hemp] at ho
          exact ih L B hrest hB' o ho
        · rw [if_neg hemp] at ho
          rcases List.mem_cons.mp ho with rfl | ho'
          · show B ≤ (L.toNat : Int)
            rcases hB with h | h
            · exact le_trans h (Int.self_le_toNat L)
            · have := h d (List.mem_cons_self d rest)
              omega
          · refine ih (d.stop : Int) B hrest ?_ o ho'
            rcases hB with h | h
            · exact Or.inl (by omega)
            · exact Or.inr (fun x hx => h x (List.mem_cons_of_mem d hx))
      · rw [if_neg hstop] at ho
        exact ih L B hrest hB' o ho

/-- The resolver's scan yields a chain: starts are nondecreasing and each
emitted span ends at or before every later span's start. -/
theorem dedupGo_pairwise :
    ∀ (l : List PDetection) (L : Int),
      l.Pairwise (fun a b => dedupLe a b = true) →
      (dedupGo L l).Pairwise
        (fun a b => a.start ≤ b.start ∧ a.stop ≤ b.start) := by
  intro l
  induction l with
  | nil => intro L _; simp [dedupGo]
  | cons d rest ih =>
    intro L hp
    rcases List.pairwise_cons.mp hp with ⟨hd, hrest⟩
    have hreststarts : ∀ x ∈ rest, (d.start : Int) ≤ (x.start : Int) := by
      intro x hx
      exact_mod_cast dedupLe_start_le (hd x hx)
    unfold dedupGo
    by_cases hL : L ≤ (d.start : Int)
    · rw [if_pos hL]
      refine List.pairwise_cons.mpr ⟨?_, ih (d.stop : Int) hrest⟩
      intro o ho
      constructor
      · have := dedupGo_start_lb rest (d.stop : Int) (d.start : Int) hrest
          (Or.inr (fun x hx => hreststarts x hx)) o ho
        exact_mod_cast this
      · have := dedupGo_start_lb rest (d.stop : Int) (d.stop : Int) hrest
          (Or.inl le_rfl) o ho
        exact_mod_cast this
    · rw [if_neg hL]
      by_cases hstop : L < (d.stop : Int)
      · rw [if_pos hstop]
        by_cases hemp : (d.text.drop (L.toNat - d.start)).isEmpty = true
        · rw [if_pos hemp]
          exact ih L hrest
        · rw [if_neg hemp]
          refine List.pairwise_cons.mpr ⟨?_, ih (d.stop : Int) hrest⟩
          intro o ho
          constructor
          · show L.toNat ≤ o.start
            have := dedupGo_start_lb rest (d.stop : Int) ((L.toNat : Int))
              hrest (Or.inl (by omega)) o ho
            exact_mod_cast this
          · show d.stop ≤ o.start
            have := dedupGo_start_lb rest (d.stop : Int) (d.stop : Int)
              hrest (Or.inl le_rfl) o ho
            exact_mod_cast this
      · rw [if_neg hstop]
        exact ih L hrest

/-- C4.  For every input candidate list, the spans the Conflict Resolver
(`deduplicate_detections`) returns are sorted by start ascending and
pairwise disjoint on `[start, end)`. -/
theorem C4_conflict_disjoint_sorted (ds : List PDetection) :
    (deduplicateDetections ds).Pairwise (fun a b =>
      a.start ≤ b.start ∧
      ∀ x : Nat, ¬ (a.start ≤ x ∧ x < a.stop ∧ b.start ≤ x ∧ x < b.stop)) := by
  unfold deduplicateDetections
  by_cases h : ds.isEmpty = true
  · rw [if_pos h]; simp
  · rw [if_neg h]
    have hsorted : (stableSort dedupLe ds).Pairwise
        (fun a b => dedupLe a b = true) :=
      stableSort_sorted dedupLe dedupLe_trans dedupLe_total ds
    refine (dedupGo_pairwise _ _ hsorted).imp ?_
    intro a b hab
    exact ⟨hab.1, fun x hx => by omega⟩

theorem dedupGo_origin :
    ∀ (l : List PDetection) (L : Int), ∀ o ∈ dedupGo L l,
      o ∈ l ∨ ∃ d ∈ l, ∃ ns : Nat, d.start < ns ∧
        o = { d with start := ns, text := d.text.drop (ns - d.start) } := by
  intro l
  induction l with
  | nil => intro L o ho; simp [dedupGo] at ho
  | cons d rest ih =>
    intro L o ho
    unfold dedupGo at ho
    by_cases hL : L ≤ (d.start : Int)
    · rw [if_pos hL] at ho
      rcases List.mem_cons.mp ho with rfl | ho'
      · exact Or.inl (List.mem_cons_self _ _)
      · rcases ih _ o ho' with h | ⟨d', hd', ns, hns, rfl⟩
        · exact Or.inl (List.mem_cons_of_mem _ h)
        · exact Or.inr ⟨d', List.mem_cons_of_mem _ hd', ns, hns, rfl⟩
    · rw [if_neg hL] at ho
      by_cases hstop : L < (d.stop : Int)
      · rw [if_pos hstop] at ho
        by_cases hemp : (d.text.drop (L.toNat - d.start)).isEmpty = true
        · rw [if_pos hemp] at ho
          rcases ih _ o ho with h | ⟨d', hd', ns, hns, rfl⟩
          · exact Or.inl (List.mem_cons_of_mem _ h)
          · exact Or.inr ⟨d', List.mem_cons_of_mem _ hd', ns, hns, rfl⟩
        · rw [if_neg hemp] at ho
          rcases List.mem_cons.mp ho with rfl | ho'
          · refine Or.inr ⟨d, List.mem_cons_self _ _, L.toNat, by omega,
              rfl⟩
          · rcases ih _ o ho' with h | ⟨d', hd', ns, hns, rfl⟩
            · exact Or.inl (List.mem_cons_of_mem _ h)
            · exact Or.inr ⟨d', List.mem_cons_of_mem _ hd', ns, hns, rfl⟩
      · rw [if_neg hstop] at ho
        rcases ih _ o ho with h | ⟨d', hd', ns, hns, rfl⟩
        · exact Or.inl (List.mem_cons_of_mem _ h)
        · exact Or.inr ⟨d', List.mem_cons_of_mem _ hd', ns, hns, rfl⟩

theorem legacyDedupGo_origin :
    ∀ (l acc : List RawDet) (L : Int), ∀ o ∈ legacyDedupGo acc L l,
      o ∈ acc ∨ o ∈ l := by
  intro l
  induction l with
  | nil =>
    intro acc L o ho
    simp only [legacyDedupGo, List.mem_reverse] at ho
    exact Or.inl ho
  | cons d rest ih =>
    intro acc L o ho
    unfold legacyDedupGo at ho
    by_cases hL : L ≤ (d.start : Int)
    · rw [if_pos hL] at ho
      rcases ih _ _ o ho with h | h
      · rcases List.mem_cons.mp h with rfl | h'
        · exact Or.inr (List.mem_cons_self _ _)
        · exact Or.inl h'
      · exact Or.inr (List.mem_cons_of_mem _ h)
    · rw [if_neg hL] at ho
      by_cases hrepl : (!acc.isEmpty &&
          decide (typePriority (acc.headD d).type <
            typePriority d.type)) = true
      · rw [if_pos hrepl] at ho
        rcases ih _ _ o ho with h | h
        · rcases List.mem_cons.mp h with rfl | h'
          · exact Or.inr (List.mem_cons_self _ _)
          · exact Or.inl (List.mem_of_mem_tail h')
        · exact Or.inr (List.mem_cons_of_mem _ h)
      · rw [if_neg hrepl] at ho
        rcases ih _ _ o ho with h | h
        · exact Or.inl h
        · exact Or.inr (List.mem_cons_of_mem _ h)

/-- C2, counterexample.  On candidates `[0,10)` and `[5,15)` the pipeline
resolver emits a span `[10,15)` carrying the sliced text `"abcde"` —
neither the span nor the stored text of any input candidate: the resolver
does split candidates. -/
theorem C2_counterexample :
    ∃ o ∈ deduplicateDetections
      [⟨"A".toList, "0123456789".toList, 0, 10, 1, "regex".toList⟩,
       ⟨"B".toList, "56789abcde".toList, 5, 15, 1, "regex".toList⟩],
      ∀ d ∈ ([⟨"A".toList, "0123456789".toList, 0, 10, 1, "regex".toList⟩,
        ⟨"B".toList, "56789abcde".toList, 5, 15, 1, "regex".toList⟩] :
          List PDetection),
        ¬ (o.start = d.start ∧ o.stop = d.stop ∧ o.text = d.text) := by
  decide

/-- C2, amended.  Each span the pipeline resolver outputs is either a
whole input candidate or a tail-truncation of one: the same candidate with
its start advanced past its original start and its text sliced by the same
amount (kind, end, confidence and source unchanged).  The legacy resolver
`Detector._deduplicate` never splits: each of its outputs is a whole input
candidate. -/
theorem C2_amended_no_split (ds : List PDetection) :
    (∀ o ∈ deduplicateDetections ds,
      o ∈ ds ∨ ∃ d ∈ ds, ∃ ns : Nat, d.start < ns ∧
        o = { d with start := ns, text := d.text.drop (ns - d.start) }) ∧
    (∀ l : List RawDet, ∀ o ∈ legacyDedup l, o ∈ l) := by
  constructor
  · intro o ho
    unfold deduplicateDetections at ho
    by_cases h : ds.isEmpty = true
    · rw [if_pos h] at ho; simp at ho
    · rw [if_neg h] at ho
      rcases dedupGo_origin _ _ o ho with hmem | ⟨d, hd, ns, hns, rfl⟩
      · exact Or.inl ((stableSort_perm dedupLe ds).subset hmem)
      · exact Or.inr ⟨d, (stableSort_perm dedupLe ds).subset hd, ns, hns,
          rfl⟩
  · intro l o ho
    unfold legacyDedup at ho
    by_cases h : l.isEmpty = true
    · rw [if_pos h] at ho; simp at ho
    · rw [if_neg h] at ho
      rcases legacyDedupGo_origin _ _ _ o ho with h' | h'
      · simp at h'
      · exact (stableSort_perm legacyLe l).subset h'

/-- Witness for C2 (amended): the truncated span `[10,15)` from the
counterexample input is recognised as a tail-truncation of the `[5,15)`
candidate. -/
theorem C2_amended_no_split_witness :
    ∀ o ∈ deduplicateDetections
      [⟨"A".toList, "0123456789".toList, 0, 10, 1, "regex".toList⟩,
       ⟨"B".toList, "56789abcde".toList, 5, 15, 1, "regex".toList⟩],
      o ∈ ([⟨"A".toList, "0123456789".toList, 0, 10, 1, "regex".toList⟩,
        ⟨"B".toList, "56789abcde".toList, 5, 15, 1, "regex".toList⟩] :
          List PDetection) ∨
      ∃ d ∈ ([⟨"A".toList, "0123456789".toList, 0, 10, 1,
        "regex".toList⟩,
        ⟨"B".toList, "56789abcde".toList, 5, 15, 1, "regex".toList⟩] :
          List PDetection), ∃ ns : Nat, d.start < ns ∧
        o = { d with start := ns, text := d.text.drop (ns - d.start) } :=
  (C2_amended_no_split
    [⟨"A".toList, "0123456789".toList, 0, 10, 1, "regex".toList⟩,
     ⟨"B".toList, "56789abcde".toList, 5, 15, 1, "regex".toList⟩]).1

theorem sha256Round_length (st : List Nat) (kw : Nat) :
    (sha256Round st kw).length = st.length := by
  unfold sha256Round
  rcases st with _ | ⟨a, _ | ⟨b, _ | ⟨c, _ | ⟨d, _ | ⟨e, _ | ⟨f, _ |
    ⟨g, _ | ⟨h, _ | ⟨i, tl⟩⟩⟩⟩⟩⟩⟩⟩⟩ <;> rfl

theorem foldl_sha256Round_length (kws : List Nat) :
    ∀ h : List Nat, (kws.foldl sha256Round h).length = h.length := by
  induction kws with
  | nil => intro h; rfl
  | cons k rest ih =>
    intro h
    simp only [List.foldl_cons]
    rw [ih, sha256Round_length]

theorem sha256Block_length (h block : List Nat) :
    (sha256Block h block).length = h.length := by
  unfold sha256Block
  rw [List.length_zipWith, foldl_sha256Round_length]
  omega

theorem sha256Words_length (msg : List Nat) :
    (sha256Words msg).length = 8 := by
  unfold sha256Words
  generalize chunk16 (bytesToWords (sha256Pad msg)) = blocks
  suffices hg : ∀ (bs : List (List Nat)) (st : List Nat),
      (bs.foldl sha256Block st).length = st.length by
    rw [hg]
    rfl
  intro bs
  induction bs with
  | nil => intro st; rfl
  | cons b rest ih =>
    intro st
    simp only [List.foldl_cons]
    rw [ih, sha256Block_length]

theorem hexDigitChar_mem (n : Nat) :
    hexDigitChar n ∈ "0123456789abcdef".toList := by
  unfold hexDigitChar
  have h : n % 16 < 16 := Nat.mod_lt _ (by norm_num)
  have hlen : ("0123456789abcdef".toList : List Char).length = 16 := by
    decide
  rw [List.getD_eq_getElem _ _ (by rw [hlen]; exact h)]
  exact List.getElem_mem _

theorem wordHex_mem (n : Nat) :
    ∀ c ∈ wordHex n, c ∈ "0123456789abcdef".toList := by
  intro c hc
  unfold wordHex at hc
  simp only [List.mem_cons, List.not_mem_nil, or_false] at hc
  rcases hc with rfl | rfl | rfl | rfl | rfl | rfl | rfl | rfl <;>
    exact hexDigitChar_mem _

theorem sha256Hex_length (t : Str) : (sha256Hex t).length = 64 := by
  unfold sha256Hex
  suffices hg : ∀ ws : List Nat, (ws.flatMap wordHex).length = 8 * ws.length by
    rw [hg, sha256Words_length]
  intro ws
  induction ws with
  | nil => rfl
  | cons w rest ih =>
    simp only [List.flatMap_cons, List.length_append, ih,
      List.length_cons]
    show 8 + 8 * rest.length = 8 * (rest.length + 1)
    ring

theorem sha256Hex_mem (t : Str) :
    ∀ c ∈ sha256Hex t, c ∈ "0123456789abcdef".toList := by
  intro c hc
  unfold sha256Hex at hc
  rcases List.mem_flatMap.mp hc with ⟨w, _, hcw⟩
  exact wordHex_mem w c hcw

theorem rmapInsert_entry_origin (m : List (Str × Str)) (k v : Str) :
    ∀ kv ∈ rmapInsert m k v, kv ∈ m ∨ kv = (k, v) := by
  induction m with
  | nil => intro kv hkv; simp [rmapInsert] at hkv; simp [hkv]
  | cons kv0 m' ih =>
    obtain ⟨k0, v0⟩ := kv0
    intro kv hkv
    unfold rmapInsert at hkv
    by_cases h : k0 = k
    · rw [if_pos h] at hkv
      rcases List.mem_cons.mp hkv with rfl | hkv'
      · subst h; exact Or.inr rfl
      · exact Or.inl (List.mem_cons_of_mem _ hkv')
    · rw [if_neg h] at hkv
      rcases List.mem_cons.mp hkv with rfl | hkv'
      · exact Or.inl (List.mem_cons_self _ _)
      · rcases ih kv hkv' with h' | h'
        · exact Or.inl (List.mem_cons_of_mem _ h')
        · exact Or.inr h'

theorem maskFold_entry_origin (e : MaskingEngine) :
    ∀ (ds : List PDetection) (mm : Str × List (Str × Str)),
      ∀ kv ∈ (ds.foldl (maskStep e) mm).2,
        kv ∈ mm.2 ∨ ∃ d ∈ ds,
          kv = (generatePlaceholder e d.type d.text, d.text) := by
  intro ds
  induction ds with
  | nil => intro mm kv hkv; exact Or.inl hkv
  | cons d rest ih =>
    intro mm kv hkv
    simp only [List.foldl_cons] at hkv
    rcases ih _ kv hkv with h | ⟨d', hd', rfl⟩
    · rcases rmapInsert_entry_origin _ _ _ kv h with h' | rfl
      · exact Or.inl h'
      · exact Or.inr ⟨d, List.mem_cons_self _ _, rfl⟩
    · exact Or.inr ⟨d', List.mem_cons_of_mem _ hd', rfl⟩

theorem maskText_entry_origin (e : MaskingEngine) (text : Str)
    (ds : List PDetection) :
    ∀ kv ∈ (maskText e text ds).2, ∃ d ∈ ds,
      kv = (generatePlaceholder e d.type d.text, d.text) := by
  intro kv hkv
  by_cases h : ds.isEmpty = true
  · unfold maskText at hkv
    rw [if_pos h] at hkv
    simp at hkv
  · rw [maskText_eq_foldl e text ds h] at hkv
    rcases maskFold_entry_origin e _ _ kv hkv with h' | ⟨d, hd, rfl⟩
    · simp at h'
    · exact ⟨d, (stableSort_perm _ ds).subset hd, rfl⟩

theorem maskText_validate (e : MaskingEngine) (text : Str)
    (ds : List PDetection) :
    validateRehydrationMap e (maskText e text ds).2 = true := by
  unfold validateRehydrationMap
  rw [List.all_eq_true]
  intro kv hkv
  rcases maskText_entry_origin e text ds kv hkv with ⟨d, _, rfl⟩
  unfold generatePlaceholder
  rw [Bool.and_eq_true]
  constructor
  · rw [List.isPrefixOf_iff_prefix]
    simp only [List.append_assoc]
    exact List.prefix_append _ _
  · rw [List.isSuffixOf_iff_suffix]
    exact List.suffix_append _ _

/-- C10.  The rehydration map `mask_text` builds is well-formed by
construction: every entry's key is `PREFIX + KIND + "_" + H + SUFFIX`
where `H` is the 8-character lowercase-hex digest head for the entry's
original text, and every value is that detection's original text;
consequently `validate_rehydration_map` accepts it, and on a map coming
out of `sanitize` under the default affixes `rehydrate` always returns
normally. -/
theorem C10_map_wellformed (e : MaskingEngine) (text : Str)
    (ds : List PDetection) :
    (∀ kv ∈ (maskText e text ds).2, ∃ d ∈ ds,
      kv.1 = e.pre ++ d.type ++ ('_' :: (sha256Hex d.text).take 8) ++
        e.suf ∧
      kv.2 = d.text ∧
      ((sha256Hex d.text).take 8).length = 8 ∧
      ∀ c ∈ (sha256Hex d.text).take 8, c ∈ "0123456789abcdef".toList) ∧
    validateRehydrationMap e (maskText e text ds).2 = true ∧
    (∀ (po : Str → Bool) (tag : Except String (List RawEntity))
      (cfg : SanitizerConfig) (content : Str) (ct : String) (m : Str)
      (mp : List (Str × Str)),
      sanitizeWith po tag cfg content ct = .ok (m, mp) →
      cfg.placeholderPre = "<<".toList → cfg.placeholderSuf = ">>".toList →
      ∃ r, rehydrateFn m mp = .ok r) := by
  refine ⟨?_, maskText_validate e text ds, ?_⟩
  · intro kv hkv
    rcases maskText_entry_origin e text ds kv hkv with ⟨d, hd, rfl⟩
    refine ⟨d, hd, rfl, rfl, ?_, ?_⟩
    · rw [List.length_take, sha256Hex_length]
      decide
    · intro c hc
      exact sha256Hex_mem d.text c (List.mem_of_mem_take hc)
  · intro po tag cfg content ct m mp h hpre hsuf
    unfold sanitizeWith at h
    cases hp : pipelineProcess po tag cfg content ct with
    | error err => rw [hp] at h; cases h
    | ok tdm =>
      rw [hp] at h
      obtain ⟨ptext, dets, meta⟩ := tdm
      have hmp : mp =
          (maskText ⟨cfg.placeholderPre, cfg.placeholderSuf⟩ ptext
            (deduplicateDetections dets)).2 := by
        dsimp only at h
        split at h
        · split at h <;>
          · exact (congrArg Prod.snd (Except.ok.inj h)).symm
        · exact (congrArg Prod.snd (Except.ok.inj h)).symm
      have hval : validateRehydrationMap defaultEngine mp = true := by
        rw [hmp, hpre, hsuf]
        exact maskText_validate ⟨"<<".toList, ">>".toList⟩ ptext
          (deduplicateDetections dets)
      unfold rehydrateFn
      rw [hval]
      exact ⟨_, rfl⟩

/-- Witness for C10: the default-config (NER disabled) sanitize run on
`"Contact a@b.co now"` produces the expected masked text and map, and the
theorem yields a successful rehydration. -/
theorem C10_map_wellformed_witness :
    sanitizeWith phonenumbersModel nerUnavailable
      { defaultConfig with enableNer := false }
      "Contact a@b.co now".toList "text" =
      .ok ("Contact <<EMAIL_80305c9b>> now".toList,
        [("<<EMAIL_80305c9b>>".toList, "a@b.co".toList)]) ∧
    ∃ r, rehydrateFn "Contact <<EMAIL_80305c9b>> now".toList
      [("<<EMAIL_80305c9b>>".toList, "a@b.co".toList)] = .ok r :=
  ⟨by decide,
   (C10_map_wellformed defaultEngine [] []).2.2 phonenumbersModel
     nerUnavailable { defaultConfig with enableNer := false }
     "Contact a@b.co now".toList "text"
     "Contact <<EMAIL_80305c9b>> now".toList
     [("<<EMAIL_80305c9b>>".toList, "a@b.co".toList)] (by decide) rfl rfl⟩

/-- The round trip of claim C3 for the JSON parser: parse, then feed the
emitted segments back unchanged into `reconstruct`. -/
def jsonRoundTrip (doc : Str) : Option Str :=
  (jsonParseFn doc).map fun tp => jsonReconstructFn tp.1 tp.2.1 tp.2.2

/-- C3, counterexample.  The HTML parser extracts `hi` from
`<p>hi</p>` but `reconstruct` returns the escaped text `hi`, not the
document; the JSON parser parses a compact document successfully but
`reconstruct` re-serializes it with `indent=2`, so neither reproduces its
input byte-for-byte. -/
theorem C3_counterexample :
    (htmlParseFn "<p>hi</p>".toList).1 = "hi".toList ∧
    htmlReconstructFn "hi".toList ≠ "<p>hi</p>".toList ∧
    (jsonRoundTrip "\x7b\"a\":\"b\"\x7d".toList).isSome = true ∧
    jsonRoundTrip "\x7b\"a\":\"b\"\x7d".toList ≠
      some "\x7b\"a\":\"b\"\x7d".toList := by
  decide

/-- C3, amended.  Of the three format parsers only the plain-text parser
satisfies the reconstruction invariant: feeding its emitted segment back
unchanged into `reconstruct` reproduces every document byte-for-byte (the
JSON parser re-serializes with `indent=2` and the HTML parser returns
HTML-escaped text, so both fail it). -/
theorem C3_amended_plain_roundtrip (content : Str) :
    plainReconstructFn (plainParseFn content).1 = content := rfl

/-! ## Round-trip infrastructure (claim C1)

`interleave` is the closed form of the masked string: the untouched
slices of the content alternating with the placeholders of the pending
detections.  Rehydration is then shown to remove the holes one placeholder
at a time. -/

theorem strSlice_append_strSlice (c : Str) (a b e : Nat) (hab : a ≤ b)
    (hbe : b ≤ e) :
    strSlice c a b ++ strSlice c b e = strSlice c a e := by
  unfold strSlice
  have hdrop : c.drop b = (c.drop a).drop (b - a) := by
    rw [List.drop_drop]
    congr 1
    omega
  rw [hdrop, show e - a = (b - a) + (e - b) from by omega, List.take_add]

theorem strSlice_append_drop (c : Str) (a b : Nat) (hab : a ≤ b) :
    strSlice c a b ++ c.drop b = c.drop a := by
  unfold strSlice
  have hdrop : c.drop b = (c.drop a).drop (b - a) := by
    rw [List.drop_drop]
    congr 1
    omega
  rw [hdrop, List.take_append_drop]

theorem strSlice_drop (c : Str) (a b k : Nat) :
    (strSlice c a b).drop k = strSlice c (a + k) b := by
  unfold strSlice
  rw [List.drop_take, List.drop_drop]
  have h1 : b - a - k = b - (a + k) := by omega
  rw [h1]

theorem strSlice_sub (c : Str) (a b : Nat) :
    ∀ x ∈ strSlice c a b, x ∈ c := by
  intro x hx
  unfold strSlice at hx
  exact List.mem_of_mem_drop (List.mem_of_mem_take hx)

/-- The masked string in closed form: slices of the content between the
pending detections' spans, each span replaced by its placeholder. -/
def interleave (c : Str) (e : MaskingEngine) : Nat → List PDetection → Str
  | pos, [] => c.drop pos
  | pos, d :: P =>
    strSlice c pos d.start ++ generatePlaceholder e d.type d.text ++
      interleave c e d.stop P

/-- A chain of valid spans starting at or after `pos` and ending at or
before `len`. -/
def chainB (len : Nat) : Nat → List PDetection → Bool
  | _, [] => true
  | pos, d :: P =>
    decide (pos ≤ d.start) && decide (d.start < d.stop) &&
      decide (d.stop ≤ len) && chainB len d.stop P

theorem chainB_mono (len : Nat) :
    ∀ (P : List PDetection) (pos pos' : Nat), pos' ≤ pos →
      chainB len pos P = true → chainB len pos' P = true := by
  intro P
  cases P with
  | nil => intro pos pos' _ _; rfl
  | cons d P' =>
    intro pos pos' hle h
    unfold chainB at h ⊢
    simp only [Bool.and_eq_true, decide_eq_true_eq] at h ⊢
    exact ⟨⟨⟨by omega, h.1.1.2⟩, h.1.2⟩, h.2⟩

theorem chainB_filter (len : Nat) (f : PDetection → Bool) :
    ∀ (P : List PDetection) (pos : Nat), chainB len pos P = true →
      chainB len pos (P.filter f) = true := by
  intro P
  induction P with
  | nil => intro pos _; rfl
  | cons d P' ih =>
    intro pos h
    unfold chainB at h
    simp only [Bool.and_eq_true, decide_eq_true_eq] at h
    rw [List.filter_cons]
    by_cases hf : f d = true
    · rw [if_pos hf]
      unfold chainB
      simp only [Bool.and_eq_true, decide_eq_true_eq]
      exact ⟨⟨⟨h.1.1.1, h.1.1.2⟩, h.1.2⟩, ih _ h.2⟩
    · rw [if_neg hf]
      have := ih _ h.2
      exact chainB_mono len _ _ pos (by omega) this

theorem interleave_merge (c : Str) (e : MaskingEngine) (len : Nat)
    (hlen : len = c.length) :
    ∀ (P : List PDetection) (pos q : Nat), pos ≤ q → q ≤ len →
      chainB len q P = true →
      strSlice c pos q ++ interleave c e q P = interleave c e pos P := by
  intro P
  cases P with
  | nil =>
    intro pos q hpq hq _
    unfold interleave
    exact strSlice_append_drop c pos q hpq
  | cons d P' =>
    intro pos q hpq hq h
    unfold chainB at h
    simp only [Bool.and_eq_true, decide_eq_true_eq] at h
    unfold interleave
    rw [← List.append_assoc, ← List.append_assoc]
    congr 2
    exact strSlice_append_strSlice c pos q d.start hpq h.1.1.1

/-- Descending-start comparator of `mask_text`'s sort. -/
def descLe (a b : PDetection) : Bool := decide (b.start ≤ a.start)

theorem stableSort_desc_of_strict :
    ∀ (ds acc : List PDetection),
      ds.Pairwise (fun a b => a.start < b.start) →
      (∀ y ∈ acc, ∀ d ∈ ds, y.start < d.start) →
      ds.foldl (fun acc x => stableInsert descLe x acc) acc =
        ds.reverse ++ acc := by
  intro ds
  induction ds with
  | nil => intro acc _ _; simp
  | cons d rest ih =>
    intro acc hp hlt
    rcases List.pairwise_cons.mp hp with ⟨hd, hrest⟩
    have hins : stableInsert descLe d acc = d :: acc := by
      cases acc with
      | nil => rfl
      | cons y ys =>
        have hy : y.start < d.start :=
          hlt y (List.mem_cons_self _ _) d (List.mem_cons_self _ _)
        unfold stableInsert descLe
        rw [if_neg (by simpa using (by omega : ¬ d.start ≤ y.start))]
    simp only [List.foldl_cons, hins]
    rw [ih (d :: acc) hrest ?_]
    · rw [List.reverse_cons, List.append_assoc]
      rfl
    · intro y hy r hr
      rcases List.mem_cons.mp hy with rfl | hy'
      · exact hd r hr
      · exact hlt y hy' r (List.mem_cons_of_mem _ hr)

theorem chainB_len_mono (len len' : Nat) (hlen : len ≤ len') :
    ∀ (P : List PDetection) (pos : Nat), chainB len pos P = true →
      chainB len' pos P = true := by
  intro P
  induction P with
  | nil => intro pos _; rfl
  | cons d P' ih =>
    intro pos h
    unfold chainB at h ⊢
    simp only [Bool.and_eq_true, decide_eq_true_eq] at h ⊢
    exact ⟨⟨⟨h.1.1.1, h.1.1.2⟩, by omega⟩, ih _ h.2⟩

theorem chainB_snoc (len : Nat) (d : PDetection) :
    ∀ (U : List PDetection) (pos : Nat),
      chainB len pos (U ++ [d]) = true →
      chainB d.start pos U = true ∧ d.start < d.stop ∧ d.stop ≤ len ∧
        pos ≤ d.start := by
  intro U
  induction U with
  | nil =>
    intro pos h
    unfold chainB at h
    simp only [List.nil_append, Bool.and_eq_true, decide_eq_true_eq] at h
    exact ⟨rfl, h.1.1.2, h.1.2, h.1.1.1⟩
  | cons x U' ih =>
    intro pos h
    unfold chainB at h
    simp only [List.cons_append, Bool.and_eq_true, decide_eq_true_eq] at h
    rcases ih _ h.2 with ⟨hchain, hds, hdl, hxd⟩
    refine ⟨?_, hds, hdl, by omega⟩
    unfold chainB
    simp only [Bool.and_eq_true, decide_eq_true_eq]
    exact ⟨⟨⟨h.1.1.1, h.1.1.2⟩, by omega⟩, hchain⟩

theorem chainB_pairwise_strict (len : Nat) :
    ∀ (U : List PDetection) (pos : Nat), chainB len pos U = true →
      U.Pairwise (fun a b => a.start < b.start) := by
  intro U
  induction U with
  | nil => intro pos _; exact List.Pairwise.nil
  | cons d U' ih =>
    intro pos h
    unfold chainB at h
    simp only [Bool.and_eq_true, decide_eq_true_eq] at h
    refine List.pairwise_cons.mpr ⟨?_, ih _ h.2⟩
    have hlb : ∀ x ∈ U', d.stop ≤ x.start := by
      clear ih
      have : ∀ (V : List PDetection) (q : Nat), chainB len q V = true →
          ∀ x ∈ V, q ≤ x.start := by
        intro V
        induction V with
        | nil => intro q _ x hx; simp at hx
        | cons v V' ihv =>
          intro q hq x hx
          unfold chainB at hq
          simp only [Bool.and_eq_true, decide_eq_true_eq] at hq
          rcases List.mem_cons.mp hx with rfl | hx'
          · exact hq.1.1.1
          · have := ihv _ hq.2 x hx'
            omega
      exact this U' d.stop h.2
    intro x hx
    have := hlb x hx
    omega

theorem strSlice_take_prefix (s : Str) (q pos x : Nat) (r : Str)
    (hpos : pos ≤ x) (hx : x ≤ q) (hq : q ≤ s.length) :
    strSlice (s.take q ++ r) pos x = strSlice s pos x := by
  unfold strSlice
  rw [List.drop_append_of_le_length (by
    rw [List.length_take]; omega)]
  rw [List.take_append_of_le_length (by
    rw [List.length_drop, List.length_take]; omega)]
  rw [List.drop_take]
  rw [List.take_take]
  congr 1
  omega

theorem interleave_extend (e : MaskingEngine) (s : Str) (d : PDetection)
    (hds : d.start < d.stop) (hdl : d.stop ≤ s.length) :
    ∀ (U : List PDetection) (pos : Nat), pos ≤ d.start →
      chainB d.start pos U = true →
      interleave (s.take d.start ++ generatePlaceholder e d.type d.text ++
          s.drop d.stop) e pos U =
        interleave s e pos (U ++ [d]) := by
  intro U
  induction U with
  | nil =>
    intro pos hpos _
    show (s.take d.start ++ generatePlaceholder e d.type d.text ++
      s.drop d.stop).drop pos = _
    rw [List.append_assoc,
      List.drop_append_of_le_length (by rw [List.length_take]; omega)]
    show _ = strSlice s pos d.start ++ generatePlaceholder e d.type d.text
      ++ interleave s e d.stop []
    unfold interleave strSlice
    rw [List.drop_take, List.append_assoc]
  | cons x U' ih =>
    intro pos hpos hch
    unfold chainB at hch
    simp only [Bool.and_eq_true, decide_eq_true_eq] at hch
    have hs : strSlice (s.take d.start ++
        generatePlaceholder e d.type d.text ++ s.drop d.stop) pos x.start =
        strSlice s pos x.start := by
      rw [List.append_assoc]
      exact strSlice_take_prefix s d.start pos x.start _ hch.1.1.1
        (by omega) (by omega)
    show strSlice (s.take d.start ++ generatePlaceholder e d.type d.text ++
        s.drop d.stop) pos x.start ++ _ ++ _ = _
    rw [hs, ih x.stop (by omega) hch.2]
    rfl

theorem maskFold_interleave (e : MaskingEngine) :
    ∀ (U : List PDetection) (s : Str) (m : List (Str × Str)),
      chainB s.length 0 U = true →
      ((U.reverse).foldl (maskStep e) (s, m)).1 = interleave s e 0 U := by
  intro U
  induction U using List.reverseRecOn with
  | nil => intro s m _; simp [interleave]
  | append_singleton U d ih =>
    intro s m h
    rcases chainB_snoc _ d U 0 h with ⟨hchain, hds, hdl, _⟩
    rw [List.reverse_append]
    simp only [List.reverse_singleton, List.singleton_append,
      List.foldl_cons]
    have hstep : maskStep e (s, m) d =
        (s.take d.start ++ generatePlaceholder e d.type d.text ++
          s.drop d.stop,
         rmapInsert m (generatePlaceholder e d.type d.text) d.text) := rfl
    rw [hstep]
    rw [ih _ _ (chainB_len_mono d.start _ (by
      simp only [List.length_append, List.length_take, List.length_drop]
      omega) U 0 hchain)]
    exact interleave_extend e s d hds hdl U 0 (by omega) hchain

theorem maskText_interleave (e : MaskingEngine) (c : Str)
    (U : List PDetection) (h : chainB c.length 0 U = true) :
    (maskText e c U).1 = interleave c e 0 U := by
  by_cases hemp : U.isEmpty = true
  · unfold maskText
    rw [if_pos hemp]
    cases U with
    | nil => simp [interleave]
    | cons a l => simp at hemp
  · rw [maskText_eq_foldl _ _ _ hemp]
    have hsort : stableSort descLe U = U.reverse := by
      unfold stableSort
      rw [stableSort_desc_of_strict U [] (chainB_pairwise_strict _ _ _ h)
        (by simp)]
      simp
    show ((stableSort descLe U).foldl (maskStep e) (c, [])).1 = _
    rw [hsort]
    exact maskFold_interleave e U c [] h

/-! ### Occurrence analysis for `replaceAll` -/

theorem replaceAll_of_not_infix (k v : Str) (hk : k ≠ []) :
    ∀ s : Str, ¬ k <:+: s → replaceAll s k v = s := by
  intro s
  induction s with
  | nil => intro _; rw [replaceAll_nil, if_neg hk]
  | cons c cs ih =>
    intro h
    have hp : ¬ k.isPrefixOf (c :: cs) := by
      intro hc
      exact h ((List.isPrefixOf_iff_prefix.mp hc).isInfix)
    rw [replaceAll_cons_of_not_isPrefixOf c cs k v hk hp]
    rw [ih (fun hc => h (hc.trans (List.suffix_cons c cs).isInfix))]

theorem replaceAll_skip (k v : Str) (hk : k ≠ []) :
    ∀ (w t : Str), (∀ q, q < w.length → ¬ k <+: ((w ++ t).drop q)) →
      replaceAll (w ++ t) k v = w ++ replaceAll t k v := by
  intro w
  induction w with
  | nil => intro t _; rfl
  | cons c w' ih =>
    intro t h
    have h0 : ¬ k.isPrefixOf (c :: (w' ++ t)) := by
      intro hc
      exact h 0 (by simp) (by simpa using List.isPrefixOf_iff_prefix.mp hc)
    rw [List.cons_append,
      replaceAll_cons_of_not_isPrefixOf _ _ _ _ hk h0]
    rw [ih t (fun q hq => by
      have := h (q + 1) (by simpa using Nat.succ_lt_succ hq)
      simpa using this)]
    rfl

theorem replaceAll_hit (k v : Str) (hk : k ≠ []) (w t : Str)
    (h : ∀ q, q < w.length → ¬ k <+: ((w ++ (k ++ t)).drop q)) :
    replaceAll (w ++ (k ++ t)) k v = w ++ v ++ replaceAll t k v := by
  rw [replaceAll_skip k v hk w (k ++ t) h]
  rw [replaceAll_of_isPrefixOf (k ++ t) k v hk
    (List.isPrefixOf_iff_prefix.mpr (List.prefix_append k t))]
  rw [List.drop_left, List.append_assoc]

/-- No occurrence of a `'<'`-headed pattern can start inside a
`'<'`-free block. -/
theorem not_prefix_in_clean (w t k₂ : Str) (hw : ∀ ch ∈ w, ch ≠ '<') :
    ∀ q, q < w.length → ¬ ('<' :: k₂) <+: ((w ++ t).drop q) := by
  intro q hq hpre
  have hhead : ((w ++ t).drop q).head? = some '<' := by
    rcases hpre with ⟨r, hr⟩
    rw [← hr]
    rfl
  rw [List.head?_drop] at hhead
  rw [List.getElem?_append_left (by omega)] at hhead
  exact hw '<' (List.getElem?_mem hhead) rfl

theorem replaceAll_skip_clean (k₂ v w t : Str)
    (hw : ∀ ch ∈ w, ch ≠ '<') :
    replaceAll (w ++ t) ('<' :: k₂) v =
      w ++ replaceAll t ('<' :: k₂) v :=
  replaceAll_skip _ v (by simp) w t (not_prefix_in_clean w t k₂ hw)

/-! ### Well-formed placeholders -/

/-- The inner part of a default-affix placeholder: no angle brackets. -/
def wfMid (mid : Str) : Prop := ∀ ch ∈ mid, ch ≠ '<' ∧ ch ≠ '>'

/-- `<<` mid `>>`. -/
def phStr (mid : Str) : Str := '<' :: '<' :: (mid ++ ['>', '>'])

theorem generatePlaceholder_phStr (t x : Str) :
    generatePlaceholder defaultEngine t x =
      phStr (t ++ '_' :: (sha256Hex x).take 8) := by
  unfold generatePlaceholder phStr defaultEngine
  simp [List.append_assoc]

theorem wfMid_placeholder (t x : Str) (ht : ∀ ch ∈ t, ch ≠ '<' ∧ ch ≠ '>') :
    wfMid (t ++ '_' :: (sha256Hex x).take 8) := by
  intro ch hch
  rcases List.mem_append.mp hch with h | h
  · exact ht ch h
  · rcases List.mem_cons.mp h with rfl | h'
    · exact ⟨by decide, by decide⟩
    · have hhex := sha256Hex_mem x ch (List.mem_of_mem_take h')
      have : ∀ c ∈ "0123456789abcdef".toList, c ≠ '<' ∧ c ≠ '>' := by
        decide
      exact this ch hhex

/-- Two structurally well-formed placeholders with the same text are the
same placeholder: the part before the closing `>>` is determined. -/
theorem wfMid_inj (a b u w : Str) (ha : ∀ ch ∈ a, ch ≠ '>')
    (hb : ∀ ch ∈ b, ch ≠ '>') (h : a ++ '>' :: u = b ++ '>' :: w) :
    a = b := by
  induction a generalizing b with
  | nil =>
    cases b with
    | nil => rfl
    | cons c b' =>
      rw [List.nil_append, List.cons_append] at h
      have : c = '>' := (List.cons.injEq _ _ _ _ ▸ h).1.symm
      exact absurd this (hb c (List.mem_cons_self _ _))
  | cons c a' ih =>
    cases b with
    | nil =>
      rw [List.nil_append, List.cons_append] at h
      have : c = '>' := (List.cons.injEq _ _ _ _ ▸ h).1
      exact absurd this (ha c (List.mem_cons_self _ _))
    | cons c' b' =>
      rw [List.cons_append, List.cons_append] at h
      have h1 := (List.cons.injEq _ _ _ _ ▸ h).1
      have h2 := (List.cons.injEq _ _ _ _ ▸ h).2
      rw [h1]
      rw [ih b' (fun ch hch => ha ch (List.mem_cons_of_mem _ hch))
        (fun ch hch => hb ch (List.mem_cons_of_mem _ hch)) h2]

theorem phStr_not_prefix (mid mid' : Str) (hm : wfMid mid)
    (hm' : wfMid mid') (hne : mid ≠ mid') (r : Str) :
    ¬ phStr mid <+: (phStr mid' ++ r) := by
  intro hpre
  rcases hpre with ⟨r₂, hr⟩
  unfold phStr at hr
  simp only [List.cons_append, List.cons.injEq, true_and] at hr
  have h2 : (mid ++ ['>', '>']) ++ r₂ = (mid' ++ ['>', '>']) ++ r := hr
  rw [List.append_assoc, List.append_assoc] at h2
  have : mid ++ '>' :: ('>' :: r₂) = mid' ++ '>' :: ('>' :: r) := by
    simpa using h2
  exact hne (wfMid_inj mid mid' _ _ (fun ch hch => (hm ch hch).2)
    (fun ch hch => (hm' ch hch).2) this)

theorem phStr_no_inner_match (mid mid' rest : Str) (hm : wfMid mid)
    (hm' : wfMid mid') (hne : mid ≠ mid') :
    ∀ q, q < (phStr mid').length →
      ¬ phStr mid <+: ((phStr mid' ++ rest).drop q) := by
  intro q hq hpre
  match q with
  | 0 =>
    exact phStr_not_prefix mid mid' hm hm' hne rest (by simpa using hpre)
  | 1 =>
    have hd : (phStr mid' ++ rest).drop 1 =
        '<' :: ((mid' ++ ['>', '>']) ++ rest) := rfl
    rw [hd] at hpre
    rcases hpre with ⟨r₂, hr⟩
    have hr' : '<' :: (('<' :: (mid ++ ['>', '>'])) ++ r₂) =
        '<' :: ((mid' ++ ['>', '>']) ++ rest) := hr
    have h2 := (List.cons.injEq _ _ _ _ ▸ hr').2
    have hhead := congrArg List.head? h2
    cases mid' with
    | nil => simp at hhead
    | cons m0 mid'' =>
      simp only [List.cons_append, List.head?_cons, Option.some.injEq]
        at hhead
      exact (hm' m0 (List.mem_cons_self _ _)).1 hhead.symm
  | q + 2 =>
    have hd : (phStr mid' ++ rest).drop (q + 2) =
        ((mid' ++ ['>', '>']) ++ rest).drop q := rfl
    rw [hd] at hpre
    have hhead : (((mid' ++ ['>', '>']) ++ rest).drop q).head? =
        some '<' := by
      rcases hpre with ⟨r₂, hr⟩
      rw [← hr]
      rfl
    rw [List.head?_drop] at hhead
    have hlt : q < (mid' ++ ['>', '>']).length := by
      have : (phStr mid').length = mid'.length + 4 := by
        simp [phStr]
      simp only [List.length_append, List.length_cons] at *
      omega
    rw [List.getElem?_append_left hlt] at hhead
    have hmem := List.getElem?_mem hhead
    rcases List.mem_append.mp hmem with h | h
    · have hx := hm' '<' h
      exact hx.1 rfl
    · simp at h

theorem replaceAll_skip_ph (mid mid' v rest : Str) (hm : wfMid mid)
    (hm' : wfMid mid') (hne : mid ≠ mid') :
    replaceAll (phStr mid' ++ rest) (phStr mid) v =
      phStr mid' ++ replaceAll rest (phStr mid) v :=
  replaceAll_skip (phStr mid) v (by simp [phStr]) (phStr mid') rest
    (phStr_no_inner_match mid mid' rest hm hm' hne)

theorem phStr_not_infix_clean (mid : Str) (w : Str)
    (hw : ∀ ch ∈ w, ch ≠ '<') : ¬ phStr mid <:+: w := by
  intro h
  rcases h with ⟨a, b, hab⟩
  have : '<' ∈ w := by
    rw [← hab]
    simp [phStr]
  exact hw '<' this rfl

/-- The pending-detections whose placeholder is not `k`. -/
def removePh (k : Str) (P : List PDetection) : List PDetection :=
  P.filter fun d =>
    decide (generatePlaceholder defaultEngine d.type d.text ≠ k)

theorem replaceAll_skip_clean_ph (mid v w t : Str)
    (hw : ∀ ch ∈ w, ch ≠ '<') :
    replaceAll (w ++ t) (phStr mid) v = w ++ replaceAll t (phStr mid) v :=
  replaceAll_skip_clean ('<' :: (mid ++ ['>', '>'])) v w t hw

theorem replaceAll_interleave_step (c : Str)
    (hc : ∀ ch ∈ c, ch ≠ '<' ∧ ch ≠ '>') (mid v : Str) (hm : wfMid mid) :
    ∀ (P : List PDetection) (pos : Nat),
      chainB c.length pos P = true →
      (∀ d ∈ P, d.text = strSlice c d.start d.stop) →
      (∀ d ∈ P, ∀ ch ∈ d.type, ch ≠ '<' ∧ ch ≠ '>') →
      (∀ d ∈ P, generatePlaceholder defaultEngine d.type d.text =
        phStr mid → d.text = v) →
      replaceAll (interleave c defaultEngine pos P) (phStr mid) v =
        interleave c defaultEngine pos (removePh (phStr mid) P) := by
  intro P
  induction P with
  | nil =>
    intro pos _ _ _ _
    show replaceAll (c.drop pos) (phStr mid) v = c.drop pos
    exact replaceAll_of_not_infix _ v (by simp [phStr]) _
      (phStr_not_infix_clean mid _
        (fun ch hch => (hc ch (List.mem_of_mem_drop hch)).1))
  | cons d P' ih =>
    intro pos hch hsl ht hval
    unfold chainB at hch
    simp only [Bool.and_eq_true, decide_eq_true_eq] at hch
    obtain ⟨⟨⟨hpos, hds⟩, hdl⟩, hch'⟩ := hch
    have hphd : generatePlaceholder defaultEngine d.type d.text =
        phStr (d.type ++ '_' :: (sha256Hex d.text).take 8) :=
      generatePlaceholder_phStr d.type d.text
    have hmidd : wfMid (d.type ++ '_' :: (sha256Hex d.text).take 8) :=
      wfMid_placeholder d.type d.text (ht d (List.mem_cons_self _ _))
    have hslice_clean : ∀ ch ∈ strSlice c pos d.start, ch ≠ '<' :=
      fun ch hch0 => (hc ch (strSlice_sub c pos d.start ch hch0)).1
    have hgoal_lhs : interleave c defaultEngine pos (d :: P') =
        strSlice c pos d.start ++
          (generatePlaceholder defaultEngine d.type d.text ++
            interleave c defaultEngine d.stop P') := by
      show strSlice c pos d.start ++ _ ++ _ = _
      rw [List.append_assoc]
    by_cases heq : d.type ++ '_' :: (sha256Hex d.text).take 8 = mid
    · -- the placeholder being replaced
      have hph : generatePlaceholder defaultEngine d.type d.text =
          phStr mid := by rw [hphd, heq]
      have hv : d.text = v := hval d (List.mem_cons_self _ _) hph
      have hrm : removePh (phStr mid) (d :: P') =
          removePh (phStr mid) P' := by
        unfold removePh
        rw [List.filter_cons, if_neg (by simp [hph])]
      rw [hgoal_lhs, hph]
      rw [replaceAll_hit (phStr mid) v (by simp [phStr]) _ _
        (not_prefix_in_clean _ _ _ hslice_clean)]
      rw [ih d.stop hch'
        (fun x hx => hsl x (List.mem_cons_of_mem _ hx))
        (fun x hx => ht x (List.mem_cons_of_mem _ hx))
        (fun x hx => hval x (List.mem_cons_of_mem _ hx))]
      rw [hrm, ← hv]
      rw [hsl d (List.mem_cons_self _ _)]
      rw [strSlice_append_strSlice c pos d.start d.stop hpos (by omega)]
      exact interleave_merge c defaultEngine c.length rfl _ pos d.stop
        (by omega) hdl (chainB_filter _ _ _ _ hch')
    · -- another placeholder: skip it whole
      have hrm : removePh (phStr mid) (d :: P') =
          d :: removePh (phStr mid) P' := by
        unfold removePh
        rw [List.filter_cons, if_pos (by
          simp only [decide_eq_true_eq, hphd]
          intro hc2
          exact heq (by
            have := hc2
            unfold phStr at this
            simp only [List.cons.injEq, true_and] at this
            exact List.append_inj_left' this (by rfl)))]
      rw [hgoal_lhs, hphd]
      rw [replaceAll_skip_clean_ph mid v _ _ hslice_clean]
      rw [replaceAll_skip_ph mid _ v _ hm hmidd (fun hmm => heq hmm.symm)]
      rw [ih d.stop hch'
        (fun x hx => hsl x (List.mem_cons_of_mem _ hx))
        (fun x hx => ht x (List.mem_cons_of_mem _ hx))
        (fun x hx => hval x (List.mem_cons_of_mem _ hx))]
      rw [hrm]
      show _ = strSlice c pos d.start ++ _ ++ _
      rw [hphd, List.append_assoc]

theorem foldReplace_interleave (c : Str)
    (hc : ∀ ch ∈ c, ch ≠ '<' ∧ ch ≠ '>') :
    ∀ (L : List (Str × Str)) (P : List PDetection),
      chainB c.length 0 P = true →
      (∀ d ∈ P, d.text = strSlice c d.start d.stop) →
      (∀ d ∈ P, ∀ ch ∈ d.type, ch ≠ '<' ∧ ch ≠ '>') →
      (∀ kv ∈ L, ∃ mid, wfMid mid ∧ kv.1 = phStr mid) →
      (∀ kv ∈ L, ∀ d ∈ P,
        generatePlaceholder defaultEngine d.type d.text = kv.1 →
        d.text = kv.2) →
      L.foldl (fun m kv => replaceAll m kv.1 kv.2)
          (interleave c defaultEngine 0 P) =
        interleave c defaultEngine 0
          (P.filter fun d =>
            decide (generatePlaceholder defaultEngine d.type d.text ∉
              L.map Prod.fst)) := by
  intro L
  induction L with
  | nil =>
    intro P _ _ _ _ _
    simp only [List.foldl_nil, List.map_nil]
    have hfil : (P.filter fun d =>
        decide (generatePlaceholder defaultEngine d.type d.text ∉
          ([] : List Str))) = P :=
      List.filter_eq_self.mpr (fun a _ => by simp)
    rw [hfil]
  | cons kv L' ih =>
    intro P hch hsl ht hL hval
    obtain ⟨mid, hmid, hk⟩ := hL kv (List.mem_cons_self _ _)
    simp only [List.foldl_cons, List.map_cons]
    simp only [hk]
    rw [replaceAll_interleave_step c hc mid kv.2 hmid P 0 hch hsl ht
      (fun d hd hgen =>
        hval kv (List.mem_cons_self _ _) d hd (by rw [hgen, hk]))]
    rw [ih (removePh (phStr mid) P)
      (chainB_filter _ _ _ _ hch)
      (fun d hd => hsl d (List.mem_of_mem_filter hd))
      (fun d hd => ht d (List.mem_of_mem_filter hd))
      (fun kv' h => hL kv' (List.mem_cons_of_mem _ h))
      (fun kv' h d hd => hval kv' (List.mem_cons_of_mem _ h) d
        (List.mem_of_mem_filter hd))]
    congr 1
    unfold removePh
    rw [List.filter_filter]
    apply List.filter_congr
    intro d hd
    by_cases h1 : generatePlaceholder defaultEngine d.type d.text = phStr mid
    · simp [h1]
    · by_cases h2 : generatePlaceholder defaultEngine d.type d.text ∈
          L'.map Prod.fst
      · simp [h1, h2]
      · simp [h1, h2]

theorem rehydrateText_interleave (c : Str)
    (hc : ∀ ch ∈ c, ch ≠ '<' ∧ ch ≠ '>') (P : List PDetection)
    (map : List (Str × Str))
    (hch : chainB c.length 0 P = true)
    (hsl : ∀ d ∈ P, d.text = strSlice c d.start d.stop)
    (ht : ∀ d ∈ P, ∀ ch ∈ d.type, ch ≠ '<' ∧ ch ≠ '>')
    (hm : ∀ kv ∈ map, ∃ mid, wfMid mid ∧ kv.1 = phStr mid)
    (hval : ∀ kv ∈ map, ∀ d ∈ P,
      generatePlaceholder defaultEngine d.type d.text = kv.1 →
      d.text = kv.2)
    (hcov : ∀ d ∈ P, generatePlaceholder defaultEngine d.type d.text ∈
      map.map Prod.fst) :
    rehydrateText defaultEngine (interleave c defaultEngine 0 P) map =
      c := by
  unfold rehydrateText
  by_cases hemp : map.isEmpty = true
  · rw [if_pos hemp]
    have hmape : map = [] := by
      cases map with
      | nil => rfl
      | cons a l => simp at hemp
    have hPe : P = [] := by
      cases P with
      | nil => rfl
      | cons d P' =>
        have := hcov d (List.mem_cons_self _ _)
        rw [hmape] at this
        simp at this
    rw [hPe]
    show c.drop 0 = c
    exact List.drop_zero c
  · rw [if_neg hemp]
    have hperm : (stableSort (fun a b =>
        decide (b.1.length ≤ a.1.length)) map).Perm map :=
      stableSort_perm _ map
    rw [foldReplace_interleave c hc _ P hch hsl ht
      (fun kv h => hm kv (hperm.subset h))
      (fun kv h => hval kv (hperm.subset h))]
    have hfil : P.filter (fun d =>
        decide (generatePlaceholder defaultEngine d.type d.text ∉
          (stableSort (fun a b => decide (b.1.length ≤ a.1.length))
            map).map Prod.fst)) = [] := by
      rw [List.filter_eq_nil_iff]
      intro d hd
      simp only [decide_eq_true_eq, not_not]
      exact (hperm.map Prod.fst).mem_iff.mpr (hcov d hd)
    rw [hfil]
    show c.drop 0 = c
    exact List.drop_zero c

/-! ### Bounds on the regex engine: every candidate end stays in range -/

/-- All candidate ends of `p` from an in-range position are in range. -/
def reBounded (p : RE) : Prop :=
  ∀ (s : Str) (i : Nat), i ≤ s.length → ∀ e ∈ p s i, e ≤ s.length

theorem reEps_bounded : reBounded reEps := by
  intro s i hi e he
  simp only [reEps, List.mem_singleton] at he
  omega

theorem reBnd_bounded : reBounded reBnd := by
  intro s i hi e he
  unfold reBnd at he
  split at he
  · simp only [List.mem_singleton] at he; omega
  · simp at he

theorem reCls_bounded (f : Char → Bool) : reBounded (reCls f) := by
  intro s i hi e he
  cases hg : s.get? i with
  | none =>
    rw [List.get?_eq_getElem?] at hg
    simp [reCls, hg] at he
  | some ch =>
    have hlt : i < s.length := (List.get?_eq_some.mp hg).1
    rw [List.get?_eq_getElem?] at hg
    simp only [reCls, hg] at he
    split at he
    all_goals simp_all
    omega

theorem reLit_bounded (lit : Str) : reBounded (reLit lit) := by
  intro s i hi e he
  unfold reLit at he
  split at he
  case isTrue h =>
    simp only [List.mem_singleton] at he
    have := (List.isPrefixOf_iff_prefix.mp h).length_le
    rw [List.length_drop] at this
    omega
  case isFalse => simp at he

theorem reSeq_bounded (p q : RE) (hp : reBounded p) (hq : reBounded q) :
    reBounded (reSeq p q) := by
  intro s i hi e he
  unfold reSeq at he
  rcases List.mem_flatMap.mp he with ⟨m, hm, he'⟩
  exact hq s m (hp s i hi m hm) e he'

theorem reAlt_bounded (p q : RE) (hp : reBounded p) (hq : reBounded q) :
    reBounded (reAlt p q) := by
  intro s i hi e he
  rcases List.mem_append.mp he with h | h
  · exact hp s i hi e h
  · exact hq s i hi e h

theorem reOpt_bounded (p : RE) (hp : reBounded p) :
    reBounded (reOpt p) := by
  intro s i hi e he
  rcases List.mem_append.mp he with h | h
  · exact hp s i hi e h
  · simp only [List.mem_singleton] at h; omega

theorem reCat_bounded (ps : List RE) (h : ∀ p ∈ ps, reBounded p) :
    reBounded (reCat ps) := by
  induction ps with
  | nil => exact reEps_bounded
  | cons p rest ih =>
    exact reSeq_bounded p (reCat rest) (h p (List.mem_cons_self _ _))
      (ih (fun q hq => h q (List.mem_cons_of_mem _ hq)))

theorem reUpTo_bounded (p : RE) (hp : reBounded p) (k : Nat) :
    reBounded (reUpTo p k) := by
  induction k with
  | zero => exact reEps_bounded
  | succ k ih =>
    intro s i hi e he
    rcases List.mem_append.mp he with h | h
    · rcases List.mem_flatMap.mp h with ⟨m, hm, he'⟩
      exact ih s m (hp s i hi m hm) e he'
    · simp only [List.mem_singleton] at h; omega

theorem reRepP_bounded (p : RE) (hp : reBounded p) (lo hi : Nat) :
    reBounded (reRepP p lo hi) := by
  apply reCat_bounded
  intro q hq
  rcases List.mem_append.mp hq with h | h
  · rw [List.eq_of_mem_replicate h]; exact hp
  · simp only [List.mem_singleton] at h
    rw [h]; exact reUpTo_bounded p hp _

theorem reRep_bounded (f : Char → Bool) (lo hi : Nat) :
    reBounded (reRep f lo hi) :=
  reRepP_bounded _ (reCls_bounded f) lo hi

theorem reRepU_bounded (f : Char → Bool) (lo : Nat) :
    reBounded (reRepU f lo) := by
  intro s i hi e he
  exact reRep_bounded f lo _ s i hi e he

theorem reCat_nil_bounded : reBounded (reCat []) := reEps_bounded

theorem reCat_cons_bounded (p : RE) (ps : List RE) (hp : reBounded p)
    (hps : reBounded (reCat ps)) : reBounded (reCat (p :: ps)) :=
  reSeq_bounded p (reCat ps) hp hps

theorem ipv4Octet_bounded : reBounded ipv4Octet := by
  unfold ipv4Octet
  repeat
    first
    | exact reBnd_bounded
    | exact reEps_bounded
    | exact reCls_bounded _
    | exact reLit_bounded _
    | exact reRep_bounded _ _ _
    | exact reRepU_bounded _ _
    | apply reUpTo_bounded
    | apply reRepP_bounded
    | apply reOpt_bounded
    | apply reAlt_bounded
    | exact reCat_nil_bounded
    | apply reCat_cons_bounded

theorem emailRe_bounded : reBounded emailRe := by
  unfold emailRe
  repeat
    first
    | exact reBnd_bounded
    | exact reEps_bounded
    | exact reCls_bounded _
    | exact reLit_bounded _
    | exact reRep_bounded _ _ _
    | exact reRepU_bounded _ _
    | apply reUpTo_bounded
    | apply reRepP_bounded
    | apply reOpt_bounded
    | apply reAlt_bounded
    | exact reCat_nil_bounded
    | apply reCat_cons_bounded

theorem ccRe_bounded : reBounded ccRe := by
  unfold ccRe
  repeat
    first
    | exact reBnd_bounded
    | exact reEps_bounded
    | exact reCls_bounded _
    | exact reLit_bounded _
    | exact reRep_bounded _ _ _
    | exact reRepU_bounded _ _
    | apply reUpTo_bounded
    | apply reRepP_bounded
    | apply reOpt_bounded
    | apply reAlt_bounded
    | exact reCat_nil_bounded
    | apply reCat_cons_bounded

theorem ipv4Re_bounded : reBounded ipv4Re := by
  unfold ipv4Re
  repeat
    first
    | exact reBnd_bounded
    | exact reEps_bounded
    | exact reCls_bounded _
    | exact reLit_bounded _
    | exact reRep_bounded _ _ _
    | exact reRepU_bounded _ _
    | exact ipv4Octet_bounded
    | apply reUpTo_bounded
    | apply reRepP_bounded
    | apply reOpt_bounded
    | apply reAlt_bounded
    | exact reCat_nil_bounded
    | apply reCat_cons_bounded

theorem ipv6G_bounded : reBounded ipv6G := by
  unfold ipv6G
  repeat
    first
    | exact reBnd_bounded
    | exact reEps_bounded
    | exact reCls_bounded _
    | exact reLit_bounded _
    | exact reRep_bounded _ _ _
    | exact reRepU_bounded _ _
    | apply reUpTo_bounded
    | apply reRepP_bounded
    | apply reOpt_bounded
    | apply reAlt_bounded
    | exact reCat_nil_bounded
    | apply reCat_cons_bounded

theorem ipv6G2_bounded : reBounded ipv6G2 := by
  unfold ipv6G2
  repeat
    first
    | exact reBnd_bounded
    | exact reEps_bounded
    | exact reCls_bounded _
    | exact reLit_bounded _
    | exact reRep_bounded _ _ _
    | exact reRepU_bounded _ _
    | apply reUpTo_bounded
    | apply reRepP_bounded
    | apply reOpt_bounded
    | apply reAlt_bounded
    | exact reCat_nil_bounded
    | apply reCat_cons_bounded

theorem ipv6V4Octet_bounded : reBounded ipv6V4Octet := by
  unfold ipv6V4Octet
  repeat
    first
    | exact reBnd_bounded
    | exact reEps_bounded
    | exact reCls_bounded _
    | exact reLit_bounded _
    | exact reRep_bounded _ _ _
    | exact reRepU_bounded _ _
    | apply reUpTo_bounded
    | apply reRepP_bounded
    | apply reOpt_bounded
    | apply reAlt_bounded
    | exact reCat_nil_bounded
    | apply reCat_cons_bounded

theorem ipv6V4Tail_bounded : reBounded ipv6V4Tail := by
  unfold ipv6V4Tail
  repeat
    first
    | exact reBnd_bounded
    | exact reEps_bounded
    | exact reCls_bounded _
    | exact reLit_bounded _
    | exact reRep_bounded _ _ _
    | exact reRepU_bounded _ _
    | exact ipv6V4Octet_bounded
    | apply reUpTo_bounded
    | apply reRepP_bounded
    | apply reOpt_bounded
    | apply reAlt_bounded
    | exact reCat_nil_bounded
    | apply reCat_cons_bounded

theorem ipv6Re_bounded : reBounded ipv6Re := by
  unfold ipv6Re
  refine reAlt_bounded _ _ ?_ (reAlt_bounded _ _ ?_ (reAlt_bounded _ _ ?_
    (reAlt_bounded _ _ ?_ (reAlt_bounded _ _ ?_ (reAlt_bounded _ _ ?_
    (reAlt_bounded _ _ ?_ (reAlt_bounded _ _ ?_ (reAlt_bounded _ _ ?_
    (reAlt_bounded _ _ ?_ (reAlt_bounded _ _ ?_ ?_))))))))))
  · exact reCat_cons_bounded _ _ (reRepP_bounded _ ipv6G_bounded _ _)
      (reCat_cons_bounded _ _ (reRep_bounded _ _ _) reCat_nil_bounded)
  · exact reCat_cons_bounded _ _ (reRepP_bounded _ ipv6G_bounded _ _)
      (reCat_cons_bounded _ _ (reLit_bounded _) reCat_nil_bounded)
  · exact reCat_cons_bounded _ _ (reRepP_bounded _ ipv6G_bounded _ _)
      (reCat_cons_bounded _ _ (reLit_bounded _)
        (reCat_cons_bounded _ _ (reRep_bounded _ _ _) reCat_nil_bounded))
  · exact reCat_cons_bounded _ _ (reRepP_bounded _ ipv6G_bounded _ _)
      (reCat_cons_bounded _ _ (reRepP_bounded _ ipv6G2_bounded _ _)
        reCat_nil_bounded)
  · exact reCat_cons_bounded _ _ (reRepP_bounded _ ipv6G_bounded _ _)
      (reCat_cons_bounded _ _ (reRepP_bounded _ ipv6G2_bounded _ _)
        reCat_nil_bounded)
  · exact reCat_cons_bounded _ _ (reRepP_bounded _ ipv6G_bounded _ _)
      (reCat_cons_bounded _ _ (reRepP_bounded _ ipv6G2_bounded _ _)
        reCat_nil_bounded)
  · exact reCat_cons_bounded _ _ (reRepP_bounded _ ipv6G_bounded _ _)
      (reCat_cons_bounded _ _ (reRepP_bounded _ ipv6G2_bounded _ _)
        reCat_nil_bounded)
  · exact reCat_cons_bounded _ _ (reRep_bounded _ _ _)
      (reCat_cons_bounded _ _ (reLit_bounded _)
        (reCat_cons_bounded _ _ (reRepP_bounded _ ipv6G2_bounded _ _)
          reCat_nil_bounded))
  · exact reCat_cons_bounded _ _ (reLit_bounded _)
      (reCat_cons_bounded _ _
        (reAlt_bounded _ _ (reRepP_bounded _ ipv6G2_bounded _ _)
          (reLit_bounded _)) reCat_nil_bounded)
  · exact reCat_cons_bounded _ _ (reLit_bounded _)
      (reCat_cons_bounded _ _
        (reUpTo_bounded _
          (reCat_cons_bounded _ _ (reLit_bounded _)
            (reCat_cons_bounded _ _ (reRep_bounded _ _ _)
              reCat_nil_bounded)) _)
        (reCat_cons_bounded _ _ (reLit_bounded _)
          (reCat_cons_bounded _ _ (reRepU_bounded _ _) reCat_nil_bounded)))
  · exact reCat_cons_bounded _ _ (reLit_bounded _)
      (reCat_cons_bounded _ _
        (reOpt_bounded _
          (reCat_cons_bounded _ _ (reLit_bounded _)
            (reCat_cons_bounded _ _
              (reOpt_bounded _
                (reCat_cons_bounded _ _ (reLit_bounded _)
                  (reCat_cons_bounded _ _ (reRep_bounded _ _ _)
                    reCat_nil_bounded)))
              (reCat_cons_bounded _ _ (reLit_bounded _)
                reCat_nil_bounded))))
        (reCat_cons_bounded _ _ ipv6V4Tail_bounded reCat_nil_bounded))
  · exact reCat_cons_bounded _ _ (reRepP_bounded _ ipv6G_bounded _ _)
      (reCat_cons_bounded _ _ (reLit_bounded _)
        (reCat_cons_bounded _ _ ipv6V4Tail_bounded reCat_nil_bounded))

theorem phoneRe_bounded : reBounded phoneRe := by
  unfold phoneRe
  repeat
    first
    | exact reBnd_bounded
    | exact reEps_bounded
    | exact reCls_bounded _
    | exact reLit_bounded _
    | exact reRep_bounded _ _ _
    | exact reRepU_bounded _ _
    | apply reUpTo_bounded
    | apply reRepP_bounded
    | apply reOpt_bounded
    | apply reAlt_bounded
    | exact reCat_nil_bounded
    | apply reCat_cons_bounded


theorem finditerGo_valid (p : RE) (hp : reBounded p) (s : Str) :
    ∀ (fuel i : Nat), i ≤ s.length →
      ∀ ie ∈ finditerGo p s fuel i, ie.1 < ie.2 ∧ ie.2 ≤ s.length := by
  intro fuel
  induction fuel with
  | zero => intro i _ ie hie; simp [finditerGo] at hie
  | succ fuel ih =>
    intro i hi ie hie
    unfold finditerGo at hie
    split at hie
    case isTrue hlt =>
      cases hfst : reFirst p s i with
      | none =>
        rw [hfst] at hie
        exact ih (i + 1) (by omega) ie hie
      | some e =>
        rw [hfst] at hie
        have hee : e ≤ s.length := by
          have hmem : e ∈ p s i := by
            unfold reFirst at hfst
            cases hps : p s i with
            | nil => rw [hps] at hfst; simp at hfst
            | cons a l =>
              rw [hps] at hfst
              simp only [List.head?_cons, Option.some.injEq] at hfst
              rw [← hfst]
              exact List.mem_cons_self _ _
          exact hp s i hi e hmem
        have hie2 : ie ∈ (if i < e then (i, e) :: finditerGo p s fuel e
            else finditerGo p s fuel (i + 1)) := hie
        by_cases hcmp : i < e
        · rw [if_pos hcmp] at hie2
          rcases List.mem_cons.mp hie2 with rfl | h
          · exact ⟨hcmp, hee⟩
          · exact ih e hee ie h
        · rw [if_neg hcmp] at hie2
          exact ih (i + 1) (by omega) ie hie2
    case isFalse => simp at hie

theorem finditer_valid (p : RE) (hp : reBounded p) (s : Str) :
    ∀ ie ∈ finditer p s, ie.1 < ie.2 ∧ ie.2 ≤ s.length :=
  finditerGo_valid p hp s (s.length + 1) 0 (by omega)

/-- Validity of every raw regex detection: nonempty in-range span, text the
exact slice, and one of the five registered kinds. -/
theorem regexDetect_valid (phoneValid : Str → Bool) (s : Str) :
    ∀ d ∈ regexDetect phoneValid s,
      d.start < d.stop ∧ d.stop ≤ s.length ∧
      d.text = strSlice s d.start d.stop ∧
      (d.type = "EMAIL".toList ∨ d.type = "CREDIT_CARD".toList ∨
        d.type = "IPV4".toList ∨ d.type = "IPV6".toList ∨
        d.type = "PHONE".toList) := by
  intro d hd
  have hraw := regexDedup_subset _ d hd
  rcases List.mem_append.mp hraw with h | hph
  · rcases List.mem_append.mp h with h | h6
    · rcases List.mem_append.mp h with h | h4
      · rcases List.mem_append.mp h with he | hcc
        · rcases List.mem_map.mp he with ⟨ie, hie, rfl⟩
          have := finditer_valid emailRe emailRe_bounded s ie hie
          exact ⟨this.1, this.2, rfl, Or.inl rfl⟩
        · rcases List.mem_filterMap.mp hcc with ⟨ie, hie, hcond⟩
          have := finditer_valid ccRe ccRe_bounded s ie hie
          split at hcond
          · rcases Option.some.inj hcond with rfl
            exact ⟨this.1, this.2, rfl, Or.inr (Or.inl rfl)⟩
          · simp at hcond
      · rcases List.mem_map.mp h4 with ⟨ie, hie, rfl⟩
        have := finditer_valid ipv4Re ipv4Re_bounded s ie hie
        exact ⟨this.1, this.2, rfl, Or.inr (Or.inr (Or.inl rfl))⟩
    · rcases List.mem_map.mp h6 with ⟨ie, hie, rfl⟩
      have := finditer_valid ipv6Re ipv6Re_bounded s ie hie
      exact ⟨this.1, this.2, rfl, Or.inr (Or.inr (Or.inr (Or.inl rfl)))⟩
  · unfold detectPhones at hph
    rcases List.mem_filterMap.mp hph with ⟨ie, hie, hcond⟩
    have := finditer_valid phoneRe phoneRe_bounded s ie hie
    dsimp only at hcond
    split at hcond
    · rcases Option.some.inj hcond with rfl
      exact ⟨this.1, this.2, rfl, Or.inr (Or.inr (Or.inr (Or.inr rfl)))⟩
    · simp at hcond

/-- The resolver's scan always emits a valid chain: spans are nonempty,
chained left to right from `last_end`, within the text; each output's text
is the exact slice of the content, and its kind is one of the input
kinds. -/
theorem dedupGo_chain_valid (c : Str) :
    ∀ (ds : List PDetection) (lastEnd : Int),
      (∀ d ∈ ds, d.start < d.stop ∧ d.stop ≤ c.length ∧
        d.text = strSlice c d.start d.stop) →
      chainB c.length lastEnd.toNat (dedupGo lastEnd ds) = true ∧
      (∀ o ∈ dedupGo lastEnd ds, o.text = strSlice c o.start o.stop ∧
        ∃ d ∈ ds, o.type = d.type) := by
  intro ds
  induction ds with
  | nil => intro lastEnd _; exact ⟨rfl, by simp [dedupGo]⟩
  | cons d rest ih =>
    intro lastEnd hv
    obtain ⟨hds, hdl, hdt⟩ := hv d (List.mem_cons_self _ _)
    have hvrest : ∀ x ∈ rest, x.start < x.stop ∧ x.stop ≤ c.length ∧
        x.text = strSlice c x.start x.stop :=
      fun x hx => hv x (List.mem_cons_of_mem _ hx)
    unfold dedupGo
    split
    case isTrue hacc =>
      obtain ⟨ihc, iho⟩ := ih (d.stop : Int) hvrest
      constructor
      · unfold chainB
        simp only [Bool.and_eq_true, decide_eq_true_eq]
        refine ⟨⟨⟨?_, hds⟩, hdl⟩, by simpa using ihc⟩
        omega
      · intro o ho
        rcases List.mem_cons.mp ho with rfl | ho'
        · exact ⟨hdt, _, List.mem_cons_self _ _, rfl⟩
        · obtain ⟨hsl, x, hx, hty⟩ := iho o ho'
          exact ⟨hsl, x, List.mem_cons_of_mem _ hx, hty⟩
    case isFalse hacc =>
      split
      case isTrue hover =>
        split
        case isTrue hempty =>
          obtain ⟨ihc, iho⟩ := ih lastEnd hvrest
          refine ⟨ihc, fun o ho => ?_⟩
          obtain ⟨hsl, x, hx, hty⟩ := iho o ho
          exact ⟨hsl, x, List.mem_cons_of_mem _ hx, hty⟩
        case isFalse hempty =>
          obtain ⟨ihc, iho⟩ := ih (d.stop : Int) hvrest
          have hle0 : 0 ≤ lastEnd := by omega
          have hlt : lastEnd.toNat < d.stop := by omega
          have hst : d.start ≤ lastEnd.toNat := by omega
          constructor
          · unfold chainB
            simp only [Bool.and_eq_true, decide_eq_true_eq]
            exact ⟨⟨⟨Nat.le_refl _, hlt⟩, hdl⟩, by simpa using ihc⟩
          · intro o ho
            rcases List.mem_cons.mp ho with rfl | ho'
            · refine ⟨?_, d, List.mem_cons_self _ _, rfl⟩
              show d.text.drop (lastEnd.toNat - d.start) =
                strSlice c lastEnd.toNat d.stop
              rw [hdt, strSlice_drop]
              congr 1
              omega
            · obtain ⟨hsl, x, hx, hty⟩ := iho o ho'
              exact ⟨hsl, x, List.mem_cons_of_mem _ hx, hty⟩
      case isFalse hover =>
        obtain ⟨ihc, iho⟩ := ih lastEnd hvrest
        refine ⟨ihc, fun o ho => ?_⟩
        obtain ⟨hsl, x, hx, hty⟩ := iho o ho
        exact ⟨hsl, x, List.mem_cons_of_mem _ hx, hty⟩

/-- `deduplicate_detections` output validity: a valid chain from 0 whose
texts are slices and whose kinds come from the input. -/
theorem deduplicateDetections_valid (c : Str) (ds : List PDetection)
    (hv : ∀ d ∈ ds, d.start < d.stop ∧ d.stop ≤ c.length ∧
      d.text = strSlice c d.start d.stop) :
    chainB c.length 0 (deduplicateDetections ds) = true ∧
    (∀ o ∈ deduplicateDetections ds, o.text = strSlice c o.start o.stop ∧
      ∃ d ∈ ds, o.type = d.type) := by
  unfold deduplicateDetections
  by_cases hemp : ds.isEmpty = true
  · rw [if_pos hemp]
    exact ⟨rfl, by simp⟩
  · rw [if_neg hemp]
    have hperm := stableSort_perm dedupLe ds
    obtain ⟨hc1, hc2⟩ := dedupGo_chain_valid c (stableSort dedupLe ds) (-1)
      (fun x hx => hv x (hperm.subset hx))
    refine ⟨by simpa using hc1, fun o ho => ?_⟩
    obtain ⟨hsl, x, hx, hty⟩ := hc2 o ho
    exact ⟨hsl, x, hperm.subset hx, hty⟩

theorem applyWhitelist_nil (dets : List PDetection) :
    applyWhitelist [] dets = dets := by
  unfold applyWhitelist
  simp

/-- The detection list `SanitizationPipeline.process` computes for plain
text when NER is disabled. -/
def textDetections (phoneValid : Str → Bool) (cfg : SanitizerConfig)
    (content : Str) : List PDetection :=
  stableSort (fun a b => decide (a.start ≤ b.start))
    (applyWhitelist cfg.whitelist
      (if cfg.enableRegex then
        (regexDetect phoneValid content).map fun d =>
          (⟨d.type, d.text, d.start, d.stop, 1, "regex".toList⟩ :
            PDetection)
      else []))

theorem pipelineProcess_text (phoneValid : Str → Bool)
    (tagResult : Except String (List RawEntity)) (cfg : SanitizerConfig)
    (content : Str) (hner : cfg.enableNer = false)
    (hlen : content.length ≤ cfg.maxInputCharacters) :
    pipelineProcess phoneValid tagResult cfg content "text" =
      .ok (content, textDetections phoneValid cfg content, .textM) := by
  unfold pipelineProcess textDetections
  rw [if_neg (by omega)]
  simp [hner]

/-- The five regex kinds contain no angle bracket. -/
theorem regexKinds_clean (t : Str)
    (h : t = "EMAIL".toList ∨ t = "CREDIT_CARD".toList ∨
      t = "IPV4".toList ∨ t = "IPV6".toList ∨ t = "PHONE".toList) :
    ∀ ch ∈ t, ch ≠ '<' ∧ ch ≠ '>' := by
  rcases h with rfl | rfl | rfl | rfl | rfl <;> decide

theorem textDetections_valid (phoneValid : Str → Bool)
    (cfg : SanitizerConfig) (content : Str) :
    ∀ d ∈ textDetections phoneValid cfg content,
      d.start < d.stop ∧ d.stop ≤ content.length ∧
      d.text = strSlice content d.start d.stop ∧
      (∀ ch ∈ d.type, ch ≠ '<' ∧ ch ≠ '>') := by
  intro d hd
  unfold textDetections at hd
  have hd2 := (stableSort_perm _ _).subset hd
  unfold applyWhitelist at hd2
  have hd3 := List.mem_of_mem_filter hd2
  split at hd3
  · rcases List.mem_map.mp hd3 with ⟨r, hr, rfl⟩
    obtain ⟨h1, h2, h3, h4⟩ := regexDetect_valid phoneValid content r hr
    exact ⟨h1, h2, h3, regexKinds_clean r.type h4⟩
  · simp at hd3

theorem maskText_key_present (e : MaskingEngine) (text : Str)
    (ds : List PDetection) (d : PDetection) (hd : d ∈ ds) :
    generatePlaceholder e d.type d.text ∈
      (maskText e text ds).2.map Prod.fst := by
  have hemp : ¬ ds.isEmpty = true := by
    cases ds with
    | nil => simp at hd
    | cons a l => simp
  rw [maskText_eq_foldl e text ds hemp]
  exact maskFold_key_present e _ _ d ((stableSort_perm _ ds).mem_iff.mpr hd)

theorem sanitizeWith_text (phoneValid : Str → Bool)
    (tagResult : Except String (List RawEntity)) (cfg : SanitizerConfig)
    (content : Str)
    (hpre : cfg.placeholderPre = "<<".toList)
    (hsuf : cfg.placeholderSuf = ">>".toList)
    (hner : cfg.enableNer = false)
    (hlen : content.length ≤ cfg.maxInputCharacters) :
    sanitizeWith phoneValid tagResult cfg content "text" =
      .ok (maskText defaultEngine content
        (deduplicateDetections (textDetections phoneValid cfg content))) := by
  unfold sanitizeWith
  rw [pipelineProcess_text phoneValid tagResult cfg content hner hlen]
  dsimp only
  rw [if_neg (fun h => h.1 rfl)]
  rw [hpre, hsuf]
  rfl

/-- C1, amended.  Round-trip holds for plain text in the default-affix
configuration: if the placeholder affixes are the defaults `<<`/`>>`, NER
is disabled, the input is within the length bound and contains no angle
bracket, and no two resolved detections collide on their placeholder
(distinct originals always get distinct 8-hex digests in practice), then
`sanitize` succeeds and `rehydrate` applied to its masked text and map
returns exactly the original content.  (The round-trip does not extend to
every configuration: `rehydrate` validates keys with the default-affix
engine, so affixes whose keys fail the `<<`/`>>` prefix/suffix check —
such as `[[`/`]]` in the counterexample — make `rehydrate` reject the map
`sanitize` returned.) -/
theorem C1_amended_roundtrip (phoneValid : Str → Bool)
    (tagResult : Except String (List RawEntity)) (cfg : SanitizerConfig)
    (content : Str)
    (hpre : cfg.placeholderPre = "<<".toList)
    (hsuf : cfg.placeholderSuf = ">>".toList)
    (hner : cfg.enableNer = false)
    (hlen : content.length ≤ cfg.maxInputCharacters)
    (hclean : ∀ ch ∈ content, ch ≠ '<' ∧ ch ≠ '>')
    (hcoll : ∀ d ∈ deduplicateDetections
        (textDetections phoneValid cfg content),
      ∀ d' ∈ deduplicateDetections (textDetections phoneValid cfg content),
        generatePlaceholder defaultEngine d.type d.text =
          generatePlaceholder defaultEngine d'.type d'.text →
        d.text = d'.text) :
    ∃ mm, sanitizeWith phoneValid tagResult cfg content "text" = .ok mm ∧
      rehydrateFn mm.1 mm.2 = .ok content := by
  have hvalid := textDetections_valid phoneValid cfg content
  obtain ⟨hch, hout⟩ := deduplicateDetections_valid content
    (textDetections phoneValid cfg content)
    (fun d hd => ⟨(hvalid d hd).1, (hvalid d hd).2.1, (hvalid d hd).2.2.1⟩)
  have hsl : ∀ d ∈ deduplicateDetections
      (textDetections phoneValid cfg content),
      d.text = strSlice content d.start d.stop := fun d hd => (hout d hd).1
  have ht : ∀ d ∈ deduplicateDetections
      (textDetections phoneValid cfg content),
      ∀ ch ∈ d.type, ch ≠ '<' ∧ ch ≠ '>' := by
    intro d hd
    obtain ⟨-, x, hx, hty⟩ := hout d hd
    rw [hty]
    exact (hvalid x hx).2.2.2
  refine ⟨maskText defaultEngine content
      (deduplicateDetections (textDetections phoneValid cfg content)),
    sanitizeWith_text phoneValid tagResult cfg content hpre hsuf hner hlen,
    ?_⟩
  unfold rehydrateFn
  rw [if_pos (maskText_validate defaultEngine content _)]
  congr 1
  rw [maskText_interleave defaultEngine content _ hch]
  apply rehydrateText_interleave content hclean _ _ hch hsl ht
  · intro kv hkv
    obtain ⟨d, hd, rfl⟩ := maskText_entry_origin defaultEngine content _
      kv hkv
    exact ⟨d.type ++ '_' :: (sha256Hex d.text).take 8,
      wfMid_placeholder d.type d.text (ht d hd),
      generatePlaceholder_phStr d.type d.text⟩
  · intro kv hkv d hd hgen
    obtain ⟨d', hd', rfl⟩ := maskText_entry_origin defaultEngine content _
      kv hkv
    exact hcoll d hd d' hd' hgen
  · intro d hd
    exact maskText_key_present defaultEngine content _ d hd

/-- A configuration with NER disabled and the other defaults. -/
def cfgNoNer : SanitizerConfig := { enableNer := false }

/-- A configuration with non-default placeholder affixes. -/
def cfgBrack : SanitizerConfig :=
  { enableNer := false, placeholderPre := "[[".toList,
    placeholderSuf := "]]".toList }

/-- C1, counterexample.  With the non-default affixes `[[`/`]]` — allowed
by the claim, which quantifies over every configuration with an empty
whitelist — `sanitize` succeeds on `a@b.co`, but `rehydrate` rejects the
very map `sanitize` returned, because it validates keys against the
default affixes `<<`/`>>`; the round-trip equation fails. -/
theorem C1_counterexample :
    sanitizeWith phonenumbersModel nerUnavailable cfgBrack "a@b.co".toList
        "text" =
      .ok ("[[EMAIL_80305c9b]]".toList,
        [("[[EMAIL_80305c9b]]".toList, "a@b.co".toList)]) ∧
    rehydrateFn "[[EMAIL_80305c9b]]".toList
        [("[[EMAIL_80305c9b]]".toList, "a@b.co".toList)] =
      .error "Invalid rehydration map format" := by
  constructor
  · decide
  · decide

theorem C1_amended_roundtrip_witness :
    ∃ mm, sanitizeWith phonenumbersModel nerUnavailable cfgNoNer
        "Contact a@b.co now".toList "text" = .ok mm ∧
      rehydrateFn mm.1 mm.2 = .ok "Contact a@b.co now".toList :=
  C1_amended_roundtrip phonenumbersModel nerUnavailable cfgNoNer
    "Contact a@b.co now".toList rfl rfl rfl (by decide) (by decide)
    (by decide)
